import Mathlib

/-!
Verification of the item fan-out script `src/data/SRD/parse_items.py`.

The script loads `items-srd.json` (a JSON array of item records), and for
each record derives a category key (`item.get('category','misc').lower()
.replace(' ','_')`) and an id key (`item.get('id','unknown_item')`), ensures
the directory `organized_items/<category>` exists (`os.makedirs` with
`exist_ok=True`), and writes the record pretty-printed (`json.dump` with
`indent=2`) to `organized_items/<category>/<id>.json`.

The embedding below models JSON values, the relevant fragment of the Python
string/path primitives, a small sequential filesystem (directories plus a
file store keyed by path strings), the serializer `json.dump(. , indent=2)`,
and a parser for the written documents (the grammar fragment of `json.load`
covering what the serializer emits: objects, arrays, strings with escapes,
integers, booleans, null, interspersed whitespace).

Strings are modelled as lists of characters.  Numbers are modelled as
integers (the script itself never computes with numbers; floats are outside
the embedding).  `str.lower()` is modelled on its ASCII fragment.
-/

/-! JSON values.  Arrays and objects are separate mutual inductives so that
mutual structural recursion and induction are available. -/

mutual

inductive Json where
  | null : Json
  | bool (b : Bool) : Json
  | num (n : Int) : Json
  | str (s : List Char) : Json
  | arr (xs : JsonArr) : Json
  | obj (xs : JsonObj) : Json
deriving DecidableEq

/-- A JSON array: a sequence of JSON values. -/
inductive JsonArr where
  | nil : JsonArr
  | cons (hd : Json) (tl : JsonArr) : JsonArr
deriving DecidableEq

/-- A JSON object: a sequence of key/value pairs (a Python dict in
insertion order). -/
inductive JsonObj where
  | nil : JsonObj
  | cons (k : List Char) (v : Json) (tl : JsonObj) : JsonObj
deriving DecidableEq

end

/-- `d.get(k)` on a Python dict: the value at the first matching key. -/
def objGet : JsonObj → List Char → Option Json
  | .nil, _ => none
  | .cons k v tl, q => if k = q then some v else objGet tl q

/-- `d.get(k, dflt)` on a Python dict. -/
def objGetD (o : JsonObj) (q : List Char) (dflt : Json) : Json :=
  match objGet o q with
  | some v => v
  | none => dflt

/-- Membership of a key in a Python dict. -/
def objHasKey : JsonObj → List Char → Bool
  | .nil, _ => false
  | .cons k _ tl, q => k = q || objHasKey tl q

/-- `d[k] = v` on a Python dict: update in place if the key is present
(keeping its position), otherwise append at the end. -/
def objInsert : JsonObj → List Char → Json → JsonObj
  | .nil, q, w => .cons q w .nil
  | .cons k v tl, q, w => if k = q then .cons k w tl else .cons k v (objInsert tl q w)

/-! Recursive well-formedness of a JSON value as produced by `json.load`:
every object has pairwise distinct keys (Python dicts cannot hold duplicate
keys). -/

mutual

def jsonWf : Json → Bool
  | .null => true
  | .bool _ => true
  | .num _ => true
  | .str _ => true
  | .arr xs => jsonArrWf xs
  | .obj xs => jsonObjWf xs

def jsonArrWf : JsonArr → Bool
  | .nil => true
  | .cons hd tl => jsonWf hd && jsonArrWf tl

def jsonObjWf : JsonObj → Bool
  | .nil => true
  | .cons k v tl => !objHasKey tl k && jsonWf v && jsonObjWf tl

end

/-! ### Characters and strings (the Python fragment the script uses) -/

/-- `str.lower()` on one character, ASCII fragment. -/
def asciiLower (c : Char) : Char :=
  if 'A' ≤ c ∧ c ≤ 'Z' then Char.ofNat (c.toNat + 32) else c

/-- `s.lower()`, ASCII fragment. -/
def lowerStr (s : List Char) : List Char := s.map asciiLower

/-- `s.replace(' ', '_')`. -/
def replaceSpace (s : List Char) : List Char :=
  s.map (fun c => if c = ' ' then '_' else c)

/-- Decimal digit character for `d < 10`. -/
def digitChar (d : Nat) : Char := Char.ofNat (48 + d)

/-- Decimal digits, fuel-indexed so that the recursion is structural (any
`fuel > n` gives the digits of `n`, most significant first). -/
def natCharsAux : Nat → Nat → List Char
  | 0, _ => []
  | fuel + 1, n =>
    if n < 10 then [digitChar n]
    else natCharsAux fuel (n / 10) ++ [digitChar (n % 10)]

/-- The decimal digits of a natural number, most significant first
(`str(n)` for a nonnegative Python int). -/
def natChars (n : Nat) : List Char := natCharsAux (n + 1) n

/-- `str(n)` for a Python int, modelled on `Int`. -/
def intChars (n : Int) : List Char :=
  if n < 0 then '-' :: natChars n.natAbs else natChars n.natAbs

/-- The characters of `True`. -/
def trueChars : List Char := "True".data

/-- The characters of `False`. -/
def falseChars : List Char := "False".data

/-- The characters of `None`. -/
def noneChars : List Char := "None".data

/-- Python `repr` escaping of one character inside a single-quoted string
literal (basic fragment: backslash, quote, newline, carriage return, tab;
other characters pass through). -/
def pyReprEsc (quote : Char) (c : Char) : List Char :=
  if c = '\\' then ['\\', '\\']
  else if c = quote then ['\\', quote]
  else if c = '\n' then ['\\', 'n']
  else if c = '\r' then ['\\', 'r']
  else if c = '\t' then ['\\', 't']
  else [c]

/-! `str(x)` / `repr(x)` for the Python values arising from JSON: used by
the f-string `f"{item_id}.json"`.  `str` of a string is the string itself;
`str` of any other value coincides with `repr`.  `repr` of a string picks
double quotes when the string contains a single quote and no double quote,
otherwise single quotes. -/

/-- Python `repr` of a string value. -/
def pyReprStr (s : List Char) : List Char :=
  if s.contains '\x27' && !s.contains '"' then
    '"' :: (s.flatMap (pyReprEsc '"')) ++ ['"']
  else
    '\x27' :: (s.flatMap (pyReprEsc '\x27')) ++ ['\x27']

mutual

/-- Python `repr` of a JSON-derived value. -/
def pyRepr : Json → List Char
  | .null => noneChars
  | .bool true => trueChars
  | .bool false => falseChars
  | .num n => intChars n
  | .str s => pyReprStr s
  | .arr xs => '[' :: pyReprArr xs ++ [']']
  | .obj xs => '\x7b' :: pyReprObj xs ++ ['\x7d']

/-- `repr` of the inside of a Python list. -/
def pyReprArr : JsonArr → List Char
  | .nil => []
  | .cons hd .nil => pyRepr hd
  | .cons hd tl => pyRepr hd ++ ',' :: ' ' :: pyReprArr tl

/-- `repr` of the inside of a Python dict. -/
def pyReprObj : JsonObj → List Char
  | .nil => []
  | .cons k v .nil => pyReprStr k ++ ':' :: ' ' :: pyRepr v
  | .cons k v tl => pyReprStr k ++ ':' :: ' ' :: pyRepr v ++ ',' :: ' ' :: pyReprObj tl

end

/-- Python `str(x)` (what an f-string interpolates). -/
def pyStr : Json → List Char
  | .str s => s
  | v => pyRepr v

/-! ### The serializer: `json.dump(item, out_file, indent=2)` with the
default `ensure_ascii=True`. -/

/-- Lowercase hexadecimal digit character for `d < 16`. -/
def hexDigitChar (d : Nat) : Char :=
  if d < 10 then digitChar d else Char.ofNat (87 + d)

/-- Four lowercase hex digits of `n < 0x10000` (a `\uXXXX` payload). -/
def hex4 (n : Nat) : List Char :=
  [hexDigitChar (n / 4096 % 16), hexDigitChar (n / 256 % 16),
   hexDigitChar (n / 16 % 16), hexDigitChar (n % 16)]

/-- JSON string escaping of one character, as `json.dump` does with
`ensure_ascii=True`: backslash, double quote, the five short control
escapes, printable ASCII verbatim, everything else as `\uXXXX` (a
surrogate pair for code points beyond the basic plane). -/
def escChar (c : Char) : List Char :=
  if c = '"' then ['\\', '"']
  else if c = '\\' then ['\\', '\\']
  else if c = '\n' then ['\\', 'n']
  else if c = '\r' then ['\\', 'r']
  else if c = '\t' then ['\\', 't']
  else if c = '\x08' then ['\\', 'b']
  else if c = '\x0c' then ['\\', 'f']
  else if 0x20 ≤ c.toNat ∧ c.toNat ≤ 0x7E then [c]
  else if c.toNat < 0x10000 then '\\' :: 'u' :: hex4 c.toNat
  else
    ('\\' :: 'u' :: hex4 (0xD800 + (c.toNat - 0x10000) / 0x400)) ++
    ('\\' :: 'u' :: hex4 (0xDC00 + (c.toNat - 0x10000) % 0x400))

/-- Escaped body of a JSON string literal. -/
def escString (s : List Char) : List Char := s.flatMap escChar

/-- A serialized JSON string literal. -/
def renderStr (s : List Char) : List Char := '"' :: escString s ++ ['"']

/-- The characters of the literal `null`. -/
def jsNullChars : List Char := ['n', 'u', 'l', 'l']

/-- The characters of the literal `true`. -/
def jsTrueChars : List Char := ['t', 'r', 'u', 'e']

/-- The characters of the literal `false`. -/
def jsFalseChars : List Char := ['f', 'a', 'l', 's', 'e']

/-- `n` spaces. -/
def indentChars (n : Nat) : List Char := List.replicate n ' '

/-! `renderJson ind v` is the text `json.dump` writes for `v` when the
enclosing context is indented at `ind` spaces; the top-level call uses
`ind = 0`.  With `indent=2` the item separator is `,` followed by a
newline and the key separator is `: `. -/

mutual

/-- Serialization of one JSON value at indentation level `ind`. -/
def renderJson (ind : Nat) : Json → List Char
  | .null => jsNullChars
  | .bool b => if b then jsTrueChars else jsFalseChars
  | .num n => intChars n
  | .str s => renderStr s
  | .arr .nil => ['[', ']']
  | .arr (.cons hd tl) =>
      '[' :: '\n' :: indentChars (ind + 2) ++ renderJson (ind + 2) hd ++
        renderMoreItems (ind + 2) tl ++ '\n' :: indentChars ind ++ [']']
  | .obj .nil => ['\x7b', '\x7d']
  | .obj (.cons k v tl) =>
      '\x7b' :: '\n' :: indentChars (ind + 2) ++ renderStr k ++ ':' :: ' ' ::
        renderJson (ind + 2) v ++ renderMoreMembers (ind + 2) tl ++
        '\n' :: indentChars ind ++ ['\x7d']

/-- Serialization of the remaining elements of a non-empty array. -/
def renderMoreItems (ind : Nat) : JsonArr → List Char
  | .nil => []
  | .cons hd tl =>
      ',' :: '\n' :: indentChars ind ++ renderJson ind hd ++ renderMoreItems ind tl

/-- Serialization of the remaining members of a non-empty object. -/
def renderMoreMembers (ind : Nat) : JsonObj → List Char
  | .nil => []
  | .cons k v tl =>
      ',' :: '\n' :: indentChars ind ++ renderStr k ++ ':' :: ' ' ::
        renderJson ind v ++ renderMoreMembers ind tl

end

/-! ### Structural size of JSON values (used as parser fuel bound). -/

mutual

/-- Number of constructors along value spines. -/
def jsonSize : Json → Nat
  | .null => 1
  | .bool _ => 1
  | .num _ => 1
  | .str _ => 1
  | .arr xs => 1 + jsonArrSize xs
  | .obj xs => 1 + jsonObjSize xs

/-- Size of an array. -/
def jsonArrSize : JsonArr → Nat
  | .nil => 0
  | .cons hd tl => 1 + jsonSize hd + jsonArrSize tl

/-- Size of an object. -/
def jsonObjSize : JsonObj → Nat
  | .nil => 0
  | .cons _ v tl => 1 + jsonSize v + jsonObjSize tl

end

/-! ### Paths and the filesystem model.

Paths are character lists.  The filesystem is the set of directories the
run has created (the pre-existing state may also seed it) together with an
association list from file paths to file contents.  `makedirs` mirrors
`os.makedirs(path, exist_ok=True)`: it creates every missing component and
fails only when a component exists as a regular file.  `openWrite` mirrors
`open(path, 'w')` followed by a full write: it fails when the path is a
directory or when the parent directory does not exist, and otherwise
creates or truncates the file. -/

/-- `True` when the string contains no `/`. -/
def noSlash (s : List Char) : Bool := s.all (fun c => !(c == '/'))

/-- The fixed output root `base_dir = "organized_items"`. -/
def baseDirChars : List Char := "organized_items".data

/-- Whether a path begins with `/` (is absolute). -/
def startsSlash : List Char → Bool
  | [] => false
  | c :: _ => c == '/'

/-- Whether a path ends with `/`. -/
def endsSlash (s : List Char) : Bool := startsSlash s.reverse

/-- `os.path.join(a, b)` on POSIX: an absolute `b` replaces `a`; otherwise
a separator is inserted unless `a` is empty or already ends in one. -/
def joinPath (a b : List Char) : List Char :=
  if startsSlash b then b
  else if a = [] then b
  else if endsSlash a then a ++ b
  else a ++ '/' :: b

/-- The directory part of a path: everything before the last `/` (empty
when the path has no separator, meaning the current directory). -/
def parentDir (p : List Char) : List Char :=
  ((p.reverse.dropWhile (fun c => !(c == '/'))).drop 1).reverse

/-- The chain of directories `os.makedirs` creates for a path: every
component cut at a `/`, plus the full path unless it ends in `/`. -/
def dirChainAux (acc : List Char) : List Char → List (List Char)
  | [] => if acc = [] || endsSlash acc then [] else [acc]
  | c :: rest =>
      if c = '/' then
        (if acc = [] then [] else [acc]) ++ dirChainAux (acc ++ [c]) rest
      else dirChainAux (acc ++ [c]) rest

/-- The directory chain of a path. -/
def dirChain (p : List Char) : List (List Char) := dirChainAux [] p

/-- The filesystem state the script interacts with. -/
structure FS where
  dirs : List (List Char)
  files : List (List Char × List Char)
deriving DecidableEq

/-- The empty pre-existing state: no output directories, no output files. -/
def emptyFS : FS := ⟨[], []⟩

/-- The keys (paths) of a file store. -/
def keysF (files : List (List Char × List Char)) : List (List Char) :=
  files.map Prod.fst

/-- Content of the file at a path, if any. -/
def lookupF : List (List Char × List Char) → List Char → Option (List Char)
  | [], _ => none
  | (k, v) :: rest, q => if k = q then some v else lookupF rest q

/-- Create or truncate-and-rewrite the file at a path. -/
def setF : List (List Char × List Char) → List Char → List Char →
    List (List Char × List Char)
  | [], p, c => [(p, c)]
  | (k, v) :: rest, p, c =>
      if k = p then (k, c) :: rest else (k, v) :: setF rest p c

/-- Add directories, keeping first-creation order and ignoring existing
ones. -/
def addDirs (dirs : List (List Char)) : List (List Char) → List (List Char)
  | [] => dirs
  | d :: rest => addDirs (if d ∈ dirs then dirs else dirs ++ [d]) rest

/-- `os.makedirs(p, exist_ok=True)`. -/
def makedirs (fs : FS) (p : List Char) : Option FS :=
  if (dirChain p).any (fun d => (lookupF fs.files d).isSome) then none
  else some { fs with dirs := addDirs fs.dirs (dirChain p) }

/-- `open(p, 'w')` followed by writing `content`. -/
def openWrite (fs : FS) (p content : List Char) : Option FS :=
  if p ∈ fs.dirs then none
  else if parentDir p = [] ∨ parentDir p ∈ fs.dirs then
    some { fs with files := setF fs.files p content }
  else none

/-! ### The script itself. -/

/-- The key `"category"`. -/
def categoryField : List Char := "category".data

/-- The key `"id"`. -/
def idField : List Char := "id".data

/-- The default category `"misc"`. -/
def miscChars : List Char := "misc".data

/-- The default id `"unknown_item"`. -/
def unknownItemChars : List Char := "unknown_item".data

/-- The filename suffix `".json"`. -/
def jsonExtChars : List Char := ".json".data

/-- `category = item.get('category', 'misc').lower().replace(' ', '_')`.
`None` when the field holds a non-string value, on which `.lower()`
raises `AttributeError` and the process dies. -/
def catKey (item : JsonObj) : Option (List Char) :=
  match objGetD item categoryField (.str miscChars) with
  | .str s => some (replaceSpace (lowerStr s))
  | _ => none

/-- `item_id = item.get('id', 'unknown_item')` (an arbitrary JSON value). -/
def idKey (item : JsonObj) : Json := objGetD item idField (.str unknownItemChars)

/-- The output file name `f"{item_id}.json"`. -/
def fileName (item : JsonObj) : List Char := pyStr (idKey item) ++ jsonExtChars

/-- The full output path
`os.path.join(os.path.join(base_dir, category), f"{item_id}.json")`. -/
def pathOf (item : JsonObj) : Option (List Char) :=
  match catKey item with
  | none => none
  | some cat => some (joinPath (joinPath baseDirChars cat) (fileName item))

/-- One iteration of the main loop: derive the keys, ensure the category
directory, serialize the record into its file.  `none` models an unhandled
exception killing the process. -/
def processItem (fs : FS) (item : JsonObj) : Option FS :=
  match catKey item with
  | none => none
  | some cat =>
    match makedirs fs (joinPath baseDirChars cat) with
    | none => none
    | some fs1 =>
        openWrite fs1 (joinPath (joinPath baseDirChars cat) (fileName item))
          (renderJson 0 (.obj item))

/-- The main loop `for item in items`, sequentially from a starting
filesystem state. -/
def run : List JsonObj → FS → Option FS
  | [], fs => some fs
  | item :: rest, fs =>
    match processItem fs item with
    | none => none
    | some fs1 => run rest fs1

/-- The fixed message printed when `items-srd.json` is missing. -/
def errMsgChars : List Char :=
  "Error: items-srd.json not found in this folder.".data

/-- The fixed success message (the f-string with `base_dir` filled in). -/
def successMsgChars : List Char :=
  "✅ Success! All items organized into folders under \x27organized_items/\x27".data

/-- Observable outcome of a terminated process: the lines it printed, its
exit status, and the final filesystem. -/
structure ProgResult where
  output : List (List Char)
  exitCode : Nat
  fs : FS
deriving DecidableEq

/-- The whole script.  `input = none` models a missing `items-srd.json`:
the script prints the error message and calls `exit()`, which raises
`SystemExit(None)` and terminates the process with status 0.  Otherwise the
main loop runs; an unhandled exception inside it is modelled as `none`.  On
normal completion the success message is printed and the process exits with
status 0. -/
def program (input : Option (List JsonObj)) (fs : FS) : Option ProgResult :=
  match input with
  | none => some ⟨[errMsgChars], 0, fs⟩
  | some items =>
    match run items fs with
    | none => none
    | some fs1 => some ⟨[successMsgChars], 0, fs1⟩

/-- The serialized content of the last record in the list whose output path
is `p` (what the file at `p` holds at the end of a completed run, if any
record wrote it). -/
def lastOutput : List JsonObj → List Char → Option (List Char)
  | [], _ => none
  | item :: rest, p =>
    match lastOutput rest p with
    | some c => some c
    | none =>
        if pathOf item = some p then some (renderJson 0 (.obj item)) else none

/-- The `(category_key, id_key)` pair of a record (the id key is the raw
JSON value of the `id` field, defaulted). -/
def pairOf (item : JsonObj) : Option (List Char × Json) :=
  match catKey item with
  | none => none
  | some cat => some (cat, idKey item)

/-- A record is benign when its category key is a nonempty string without a
path separator and its id value is a string without a path separator. -/
def okItemB (item : JsonObj) : Bool :=
  match catKey item with
  | none => false
  | some cat =>
    !cat.isEmpty && noSlash cat &&
      match idKey item with
      | .str s => noSlash s
      | _ => false

/-! ### The parser: the fragment of `json.load` covering the documents the
serializer emits. -/

/-- JSON whitespace. -/
def isWsChar (c : Char) : Bool := c == ' ' || c == '\n' || c == '\t' || c == '\r'

/-- Drop leading whitespace. -/
def skipWs : List Char → List Char
  | [] => []
  | c :: rest => if isWsChar c then skipWs rest else c :: rest

/-- Decimal digit test. -/
def isDigitChar (c : Char) : Bool := 48 ≤ c.toNat && c.toNat ≤ 57

/-- Value of a decimal digit character. -/
def digitVal (c : Char) : Nat := c.toNat - 48

/-- Value of a hexadecimal digit character (either case). -/
def hexVal (c : Char) : Option Nat :=
  if 48 ≤ c.toNat ∧ c.toNat ≤ 57 then some (c.toNat - 48)
  else if 97 ≤ c.toNat ∧ c.toNat ≤ 102 then some (c.toNat - 87)
  else if 65 ≤ c.toNat ∧ c.toNat ≤ 70 then some (c.toNat - 55)
  else none

/-- Consume a maximal run of digits, folding them onto `acc`. -/
def parseDigitsAcc (acc : Nat) : List Char → Nat × List Char
  | [] => (acc, [])
  | c :: rest =>
      if isDigitChar c then parseDigitsAcc (acc * 10 + digitVal c) rest
      else (acc, c :: rest)

/-- Parse a nonempty run of digits as a natural number. -/
def parseNatChars : List Char → Option (Nat × List Char)
  | [] => none
  | c :: rest =>
      if isDigitChar c then some (parseDigitsAcc (digitVal c) rest) else none

/-- Parse an optionally signed integer literal. -/
def parseIntChars : List Char → Option (Int × List Char)
  | [] => none
  | c :: rest =>
    if c = '-' then
      match parseNatChars rest with
      | some (n, r) => some (-(n : Int), r)
      | none => none
    else
      match parseNatChars (c :: rest) with
      | some (n, r) => some ((n : Int), r)
      | none => none

/-- Combine a surrogate pair into its code point. -/
def surrPair (hi lo : Nat) : Nat := 0x10000 + (hi - 0xD800) * 0x400 + (lo - 0xDC00)

/-- Prepend a decoded character to a string-body parse. -/
def consStr (c : Char) : Option (List Char × List Char) → Option (List Char × List Char)
  | some (s, r) => some (c :: s, r)
  | none => none

/-- The value of four hex digit characters, if all four are hex digits. -/
def hex4Val (h1 h2 h3 h4 : Char) : Option Nat :=
  match hexVal h1, hexVal h2, hexVal h3, hexVal h4 with
  | some a, some b, some c, some d => some (a * 4096 + b * 256 + c * 16 + d)
  | _, _, _, _ => none

/-! Parsing the body of a string literal after the opening quote, decoding
escapes; a `\uXXXX` high surrogate must be followed by a low surrogate
(Lean characters are Unicode scalars).  Raw control characters are
rejected as in the decoder's default strict mode.  The four functions
descend into one escape sequence each. -/

mutual

/-- Parse a string-literal body up to and including the closing quote. -/
def parseStrBody : List Char → Option (List Char × List Char)
  | [] => none
  | c :: rest =>
    if c = '"' then some ([], rest)
    else if c = '\\' then escSeq rest
    else if c.toNat < 0x20 then none
    else consStr c (parseStrBody rest)
termination_by s => 4 * s.length + 3
decreasing_by all_goals (simp only [List.length_cons]; omega)

/-- Parse what follows a backslash. -/
def escSeq : List Char → Option (List Char × List Char)
  | [] => none
  | e :: r =>
    if e = '"' then consStr '"' (parseStrBody r)
    else if e = '\\' then consStr '\\' (parseStrBody r)
    else if e = '/' then consStr '/' (parseStrBody r)
    else if e = 'n' then consStr '\n' (parseStrBody r)
    else if e = 'r' then consStr '\r' (parseStrBody r)
    else if e = 't' then consStr '\t' (parseStrBody r)
    else if e = 'b' then consStr '\x08' (parseStrBody r)
    else if e = 'f' then consStr '\x0c' (parseStrBody r)
    else if e = 'u' then uSeq r
    else none
termination_by r => 4 * r.length + 2
decreasing_by all_goals (simp only [List.length_cons]; omega)

/-- Parse what follows `\u`. -/
def uSeq : List Char → Option (List Char × List Char)
  | h1 :: h2 :: h3 :: h4 :: r2 =>
    (match hex4Val h1 h2 h3 h4 with
     | none => none
     | some n =>
       if 0xD800 ≤ n ∧ n ≤ 0xDBFF then lowSurr n r2
       else if 0xDC00 ≤ n ∧ n ≤ 0xDFFF then none
       else consStr (Char.ofNat n) (parseStrBody r2))
  | _ => none
termination_by r => 4 * r.length + 1
decreasing_by all_goals (simp only [List.length_cons]; omega)

/-- Parse the low half of a surrogate pair whose high half was `n`. -/
def lowSurr : Nat → List Char → Option (List Char × List Char)
  | n, '\\' :: 'u' :: g1 :: g2 :: g3 :: g4 :: r3 =>
    (match hex4Val g1 g2 g3 g4 with
     | none => none
     | some m =>
       if 0xDC00 ≤ m ∧ m ≤ 0xDFFF then
         consStr (Char.ofNat (surrPair n m)) (parseStrBody r3)
       else none)
  | _, _ => none
termination_by _ r => 4 * r.length
decreasing_by all_goals (simp only [List.length_cons]; omega)

end

/-- Build a Python dict from parsed members in document order (`d[k] = v`
for each member; a duplicate key keeps its first position, last value). -/
def objFromMembers (ms : List (List Char × Json)) : JsonObj :=
  ms.foldl (fun o kv => objInsert o kv.1 kv.2) JsonObj.nil

/-- Parse the tail of the literal `true`. -/
def parseTrue : List Char → Option (Json × List Char)
  | 'r' :: 'u' :: 'e' :: r2 => some (.bool true, r2)
  | _ => none

/-- Parse the tail of the literal `false`. -/
def parseFalse : List Char → Option (Json × List Char)
  | 'a' :: 'l' :: 's' :: 'e' :: r2 => some (.bool false, r2)
  | _ => none

/-- Parse the tail of the literal `null`. -/
def parseNull : List Char → Option (Json × List Char)
  | 'u' :: 'l' :: 'l' :: r2 => some (.null, r2)
  | _ => none

/-- Parse a string value after its opening quote. -/
def strVal (r : List Char) : Option (Json × List Char) :=
  match parseStrBody r with
  | some (body, rest) => some (.str body, rest)
  | none => none

/-- Parse a number value. -/
def numVal (l : List Char) : Option (Json × List Char) :=
  match parseIntChars l with
  | some (n, rest) => some (.num n, rest)
  | none => none

mutual

/-- Parse one JSON value (fuel-indexed recursion). -/
def parseVal : Nat → List Char → Option (Json × List Char)
  | 0, _ => none
  | fuel + 1, s => valDispatch fuel (skipWs s)
termination_by fuel _ => 10 * fuel
decreasing_by all_goals omega

/-- Dispatch on the first non-whitespace character of a value. -/
def valDispatch : Nat → List Char → Option (Json × List Char)
  | _, [] => none
  | fuel, c :: r =>
    if c = '\x7b' then objBody fuel r
    else if c = '[' then arrBody fuel r
    else if c = '"' then strVal r
    else if c = 't' then parseTrue r
    else if c = 'f' then parseFalse r
    else if c = 'n' then parseNull r
    else numVal (c :: r)
termination_by fuel _ => 10 * fuel + 7
decreasing_by all_goals omega

/-- Parse what follows `{`: an empty object or its members. -/
def objBody (fuel : Nat) (r : List Char) : Option (Json × List Char) :=
  match skipWs r with
  | [] => none
  | c2 :: r2 =>
    if c2 = '\x7d' then some (.obj .nil, r2)
    else
      match parseMembers fuel (c2 :: r2) with
      | some (ms, rest) => some (.obj (objFromMembers ms), rest)
      | none => none
termination_by 10 * fuel + 6
decreasing_by all_goals omega

/-- Parse what follows `[`: an empty array or its elements. -/
def arrBody (fuel : Nat) (r : List Char) : Option (Json × List Char) :=
  match skipWs r with
  | [] => none
  | c2 :: r2 =>
    if c2 = ']' then some (.arr .nil, r2)
    else
      match parseElems fuel (c2 :: r2) with
      | some (xs, rest) => some (.arr xs, rest)
      | none => none
termination_by 10 * fuel + 6
decreasing_by all_goals omega

/-- Parse the elements of a non-empty array up to and including `]`. -/
def parseElems : Nat → List Char → Option (JsonArr × List Char)
  | 0, _ => none
  | fuel + 1, s =>
    match parseVal fuel s with
    | none => none
    | some (v, rest) => elemsTail fuel v (skipWs rest)
termination_by fuel _ => 10 * fuel + 1
decreasing_by all_goals omega

/-- Continue after one array element: `,` or `]`. -/
def elemsTail (fuel : Nat) (v : Json) : List Char → Option (JsonArr × List Char)
  | ',' :: r =>
    (match parseElems fuel r with
     | some (tl, rest2) => some (.cons v tl, rest2)
     | none => none)
  | ']' :: r => some (.cons v .nil, r)
  | _ => none
termination_by _ => 10 * fuel + 2
decreasing_by all_goals omega

/-- Parse the members of a non-empty object up to and including `}`. -/
def parseMembers : Nat → List Char → Option (List (List Char × Json) × List Char)
  | 0, _ => none
  | fuel + 1, s => membersBody fuel (skipWs s)
termination_by fuel _ => 10 * fuel + 1
decreasing_by all_goals omega

/-- Parse one member starting at its key's opening quote. -/
def membersBody : Nat → List Char → Option (List (List Char × Json) × List Char)
  | fuel, '"' :: r =>
    (match parseStrBody r with
     | none => none
     | some (k, rest) => memberColon fuel k (skipWs rest))
  | _, _ => none
termination_by fuel _ => 10 * fuel + 5
decreasing_by all_goals omega

/-- Expect the `:` after a member key, then the value. -/
def memberColon (fuel : Nat) (k : List Char) : List Char →
    Option (List (List Char × Json) × List Char)
  | ':' :: r2 =>
    (match parseVal fuel r2 with
     | none => none
     | some (v, rest2) => memberSep fuel k v (skipWs rest2))
  | _ => none
termination_by _ => 10 * fuel + 4
decreasing_by all_goals omega

/-- Continue after one member: `,` or `}`. -/
def memberSep (fuel : Nat) (k : List Char) (v : Json) : List Char →
    Option (List (List Char × Json) × List Char)
  | ',' :: r3 =>
    (match parseMembers fuel r3 with
     | some (ms, rest3) => some ((k, v) :: ms, rest3)
     | none => none)
  | '\x7d' :: r3 => some ([(k, v)], r3)
  | _ => none
termination_by _ => 10 * fuel + 2
decreasing_by all_goals omega

end

/-- `json.load` on a whole document: one value, then only trailing
whitespace. -/
def parseTop (s : List Char) : Option Json :=
  match parseVal (s.length + 1) s with
  | some (v, rest) => if skipWs rest = [] then some v else none
  | none => none

/-! ### Auxiliary definitions used in the statements below. -/

/-- Number of entries of a file store lying at a given path. -/
def countKeyF (files : List (List Char × List Char)) (p : List Char) : Nat :=
  ((keysF files).filter (fun k => decide (k = p))).length

/-- The member list of an object, in order. -/
def toMembers : JsonObj → List (List Char × Json)
  | .nil => []
  | .cons k v tl => (k, v) :: toMembers tl

/-- Concatenation of two objects. -/
def objConcat : JsonObj → JsonObj → JsonObj
  | .nil, t => t
  | .cons k v r, t => .cons k v (objConcat r t)

/-- The output path determined by a `(category_key, id_value)` pair. -/
def pathFn (pr : List Char × Json) : List Char :=
  joinPath (joinPath baseDirChars pr.1) (pyStr pr.2 ++ jsonExtChars)

/-- The next character, if any, is not a decimal digit (so a greedy number
parse is not extended by what follows). -/
def notDigitHead : List Char → Prop
  | [] => True
  | c :: _ => isDigitChar c = false

/-- Rendering a value and parsing it back only needs a side condition for
numbers: the following text must not begin with a digit. -/
def numSep : Json → List Char → Prop
  | .num _, rest => notDigitHead rest
  | _, _ => True

/-- Invariant maintained by the run on benign records: every output file
path contains exactly two separators
(`organized_items/<category>/<file>`), every known directory at most
one. -/
def GoodFS (fs : FS) : Prop :=
  (∀ k ∈ keysF fs.files, k.count '/' = 2) ∧ (∀ d ∈ fs.dirs, d.count '/' ≤ 1)

/-! ### Concrete fixtures for scenario conjuncts, witnesses and
counterexamples. -/

/-- `"Weapon"`. -/
def weaponChars : List Char := "Weapon".data

/-- `"longsword"`. -/
def longswordChars : List Char := "longsword".data

/-- `"damage"`. -/
def damageChars : List Char := "damage".data

/-- `"1d8"`. -/
def d8Chars : List Char := "1d8".data

/-- The spec's example record
`{"category": "Weapon", "id": "longsword", "damage": "1d8"}`. -/
def itemLongsword : JsonObj :=
  .cons categoryField (.str weaponChars)
    (.cons idField (.str longswordChars)
      (.cons damageChars (.str d8Chars) .nil))

/-- `"organized_items/weapon"`. -/
def weaponDirChars : List Char := "organized_items/weapon".data

/-- `"organized_items/weapon/longsword.json"`. -/
def longswordPathChars : List Char := "organized_items/weapon/longsword.json".data

/-- The exact file text the spec's scenario expects (2-space indent). -/
def expectedLongswordChars : List Char :=
  "\x7b\n  \"category\": \"Weapon\",\n  \"id\": \"longsword\",\n  \"damage\": \"1d8\"\n\x7d".data

/-- The filesystem after running the scenario on an empty state. -/
def longswordFS : FS :=
  ⟨[baseDirChars, weaponDirChars], [(longswordPathChars, expectedLongswordChars)]⟩

/-- `"Rare Item"`. -/
def rareItemChars : List Char := "Rare Item".data

/-- `"rare_item"`. -/
def rareItemKeyChars : List Char := "rare_item".data

/-- A record whose category is `"Rare Item"`. -/
def rareRecord : JsonObj := .cons categoryField (.str rareItemChars) .nil

/-- `"name"`. -/
def nameChars : List Char := "name".data

/-- `"a"`. -/
def aChars : List Char := "a".data

/-- `"b"`. -/
def bChars : List Char := "b".data

/-- A record with no `id` and no `category`. -/
def idlessA : JsonObj := .cons nameChars (.str aChars) .nil

/-- Another record with no `id` and no `category`. -/
def idlessB : JsonObj := .cons nameChars (.str bChars) .nil

/-- `"organized_items/misc"`. -/
def miscDirChars : List Char := "organized_items/misc".data

/-- `"organized_items/misc/unknown_item.json"`. -/
def unknownPathChars : List Char := "organized_items/misc/unknown_item.json".data

/-- The state after running the two id-less records: one file, holding the
second record. -/
def idlessFS : FS :=
  ⟨[baseDirChars, miscDirChars], [(unknownPathChars, renderJson 0 (.obj idlessB))]⟩

/-- A record whose `id` is the number `5`. -/
def numIdItem : JsonObj := .cons idField (.num 5) .nil

/-- A record whose `id` is the string `"5"`. -/
def strIdItem : JsonObj := .cons idField (.str (natChars 5)) .nil

/-- `"organized_items/misc/5.json"`. -/
def fiveJsonPathChars : List Char := "organized_items/misc/5.json".data

/-- The state after running the record with numeric id `5`. -/
def numIdFS : FS :=
  ⟨[baseDirChars, miscDirChars], [(fiveJsonPathChars, renderJson 0 (.obj numIdItem))]⟩

/-- `"x"`. -/
def xChars : List Char := "x".data

/-- `"v"`. -/
def vChars : List Char := "v".data

/-- `{"id": "x", "v": 1}`. -/
def dupA : JsonObj := .cons idField (.str xChars) (.cons vChars (.num 1) .nil)

/-- `{"id": "x", "v": 2}`: same `(category_key, id_key)` pair as `dupA`,
different content. -/
def dupB : JsonObj := .cons idField (.str xChars) (.cons vChars (.num 2) .nil)

/-- `"organized_items/misc/x.json"`. -/
def xJsonPathChars : List Char := "organized_items/misc/x.json".data

/-- `"organized_items/weapon/stale.json"`. -/
def stalePathChars : List Char := "organized_items/weapon/stale.json".data

/-- `"old"`. -/
def oldChars : List Char := "old".data

/-- A pre-existing output state holding one stale file that no collection
below produces. -/
def staleFS : FS :=
  ⟨[baseDirChars, weaponDirChars], [(stalePathChars, oldChars)]⟩

/-- Two records with distinct `(category_key, id_key)` pairs used for the
permutation witness: distinct string ids in the default category. -/
def permA : JsonObj := .cons idField (.str aChars) .nil

/-- Second permutation-witness record. -/
def permB : JsonObj := .cons idField (.str bChars) .nil

/-! ### Lemmas about the file store. -/

theorem filterKey_of_not_mem (l : List (List Char)) (p : List Char)
    (h : p ∉ l) : l.filter (fun k => decide (k = p)) = [] := by
  induction l with
  | nil => rfl
  | cons a t ih =>
    have ha : a ≠ p := fun hh => h (hh ▸ List.mem_cons_self a t)
    simp only [List.filter_cons, decide_eq_true_eq]
    rw [if_neg ha]
    exact ih (fun hh => h (List.mem_cons_of_mem a hh))

theorem filterKey_of_nodup_mem (l : List (List Char)) (p : List Char)
    (hnd : l.Nodup) (h : p ∈ l) : l.filter (fun k => decide (k = p)) = [p] := by
  induction l with
  | nil => cases h
  | cons a t ih =>
    rcases List.nodup_cons.mp hnd with ⟨hat, hndt⟩
    by_cases ha : a = p
    · subst ha
      simp only [List.filter_cons]
      rw [if_pos (by simp), filterKey_of_not_mem t a hat]
    · rcases List.mem_cons.mp h with hh | hh
      · exact absurd hh.symm ha
      · simp only [List.filter_cons, decide_eq_true_eq]
        rw [if_neg ha]
        exact ih hndt hh

theorem lookupF_setF_self (l : List (List Char × List Char)) (p v : List Char) :
    lookupF (setF l p v) p = some v := by
  induction l with
  | nil => simp [setF, lookupF]
  | cons kv rest ih =>
    obtain ⟨k, w⟩ := kv
    by_cases hk : k = p
    · subst hk; simp [setF, lookupF]
    · simp [setF, lookupF, hk, ih]

theorem lookupF_setF_ne (l : List (List Char × List Char)) (p v q : List Char)
    (h : q ≠ p) : lookupF (setF l p v) q = lookupF l q := by
  induction l with
  | nil => simp only [setF, lookupF, if_neg (Ne.symm h)]
  | cons kv rest ih =>
    obtain ⟨k, w⟩ := kv
    by_cases hk : k = p
    · subst hk
      simp only [setF, if_pos rfl, lookupF]
      rw [if_neg (Ne.symm h), if_neg (Ne.symm h)]
    · simp only [setF, if_neg hk, lookupF]
      by_cases hq : k = q
      · rw [if_pos hq, if_pos hq]
      · rw [if_neg hq, if_neg hq, ih]

theorem keysF_setF (l : List (List Char × List Char)) (p v : List Char) :
    keysF (setF l p v) =
      if p ∈ keysF l then keysF l else keysF l ++ [p] := by
  induction l with
  | nil => simp [setF, keysF]
  | cons kv rest ih =>
    obtain ⟨k, w⟩ := kv
    by_cases hk : k = p
    · subst hk; simp [setF, keysF]
    · have hstep : setF ((k, w) :: rest) p v = (k, w) :: setF rest p v := by
        simp [setF, hk]
      have hcons : ∀ m : List (List Char × List Char),
          keysF ((k, w) :: m) = k :: keysF m := fun m => rfl
      rw [hstep, hcons, ih, hcons]
      by_cases hp : p ∈ keysF rest
      · rw [if_pos hp, if_pos (List.mem_cons_of_mem _ hp)]
      · have hnotin : p ∉ k :: keysF rest := by
          intro hh
          rcases List.mem_cons.mp hh with hh | hh
          · exact hk hh.symm
          · exact hp hh
        rw [if_neg hp, if_neg hnotin, List.cons_append]

theorem mem_keysF_setF (l : List (List Char × List Char)) (p v q : List Char) :
    q ∈ keysF (setF l p v) ↔ q ∈ keysF l ∨ q = p := by
  rw [keysF_setF]
  by_cases hp : p ∈ keysF l
  · rw [if_pos hp]
    constructor
    · exact Or.inl
    · rintro (h | rfl)
      · exact h
      · exact hp
  · rw [if_neg hp]; simp

theorem nodup_keysF_setF (l : List (List Char × List Char)) (p v : List Char)
    (h : (keysF l).Nodup) : (keysF (setF l p v)).Nodup := by
  rw [keysF_setF]
  by_cases hp : p ∈ keysF l
  · rwa [if_pos hp]
  · rw [if_neg hp, List.nodup_append]
    exact ⟨h, List.nodup_singleton p, by simpa [List.disjoint_singleton] using hp⟩

theorem mem_of_lookupF_isSome (l : List (List Char × List Char)) (q : List Char)
    (h : (lookupF l q).isSome = true) : q ∈ keysF l := by
  induction l with
  | nil => simp [lookupF] at h
  | cons kv rest ih =>
    obtain ⟨k, w⟩ := kv
    by_cases hk : k = q
    · subst hk
      exact List.mem_cons_self k (keysF rest)
    · simp only [lookupF, if_neg hk] at h
      exact List.mem_cons_of_mem k (ih h)

theorem lookupF_eq_none_of_not_mem (l : List (List Char × List Char))
    (q : List Char) (h : q ∉ keysF l) : lookupF l q = none := by
  cases hl : lookupF l q with
  | none => rfl
  | some v => exact absurd (mem_of_lookupF_isSome l q (by rw [hl]; rfl)) h

/-! ### Characterization of one loop iteration and of the whole run. -/

theorem processItem_files {fs fs' : FS} {item : JsonObj}
    (h : processItem fs item = some fs') :
    ∃ p, pathOf item = some p ∧
      fs'.files = setF fs.files p (renderJson 0 (.obj item)) := by
  unfold processItem at h
  split at h
  · simp at h
  · rename_i cat hc
    split at h
    · simp at h
    · rename_i fs1 hm
      have hfiles1 : fs1.files = fs.files := by
        unfold makedirs at hm
        split at hm
        · simp at hm
        · cases hm; rfl
      unfold openWrite at h
      split at h
      · simp at h
      · split at h
        · refine ⟨joinPath (joinPath baseDirChars cat) (fileName item), ?_, ?_⟩
          · unfold pathOf; rw [hc]
          · cases h; simp [hfiles1]
        · simp at h

theorem run_lookupF : ∀ (items : List JsonObj) (fs fs' : FS),
    run items fs = some fs' → ∀ p : List Char,
    lookupF fs'.files p =
      match lastOutput items p with
      | some c => some c
      | none => lookupF fs.files p := by
  intro items
  induction items with
  | nil =>
    intro fs fs' h p
    unfold run at h
    cases h
    simp [lastOutput]
  | cons item rest ih =>
    intro fs fs' h p
    unfold run at h
    cases hp : processItem fs item with
    | none => rw [hp] at h; simp at h
    | some fs1 =>
      rw [hp] at h
      obtain ⟨q, hq, hfiles⟩ := processItem_files hp
      rw [ih fs1 fs' h p]
      cases hlo : lastOutput rest p with
      | some c => simp [lastOutput, hlo]
      | none =>
        simp only [lastOutput, hlo, hq, hfiles]
        by_cases hpq : p = q
        · subst hpq
          rw [lookupF_setF_self, if_pos rfl]
        · rw [lookupF_setF_ne _ _ _ _ hpq,
            if_neg (fun hh => hpq (Option.some.inj hh).symm)]

theorem run_mem_keysF : ∀ (items : List JsonObj) (fs fs' : FS),
    run items fs = some fs' → ∀ k : List Char,
    k ∈ keysF fs'.files ↔ k ∈ keysF fs.files ∨ k ∈ items.filterMap pathOf := by
  intro items
  induction items with
  | nil =>
    intro fs fs' h k
    unfold run at h
    cases h
    simp
  | cons item rest ih =>
    intro fs fs' h k
    unfold run at h
    cases hp : processItem fs item with
    | none => rw [hp] at h; simp at h
    | some fs1 =>
      rw [hp] at h
      obtain ⟨q, hq, hfiles⟩ := processItem_files hp
      rw [ih fs1 fs' h k, hfiles, mem_keysF_setF]
      simp only [List.filterMap_cons, hq, List.mem_cons]
      constructor
      · rintro ((h | rfl) | h)
        · exact Or.inl h
        · exact Or.inr (Or.inl rfl)
        · exact Or.inr (Or.inr h)
      · rintro (h | (rfl | h))
        · exact Or.inl (Or.inl h)
        · exact Or.inl (Or.inr rfl)
        · exact Or.inr h

theorem run_nodup_keysF : ∀ (items : List JsonObj) (fs fs' : FS),
    run items fs = some fs' → (keysF fs.files).Nodup →
    (keysF fs'.files).Nodup := by
  intro items
  induction items with
  | nil =>
    intro fs fs' h hnd
    unfold run at h
    cases h
    exact hnd
  | cons item rest ih =>
    intro fs fs' h hnd
    unfold run at h
    cases hp : processItem fs item with
    | none => rw [hp] at h; simp at h
    | some fs1 =>
      rw [hp] at h
      obtain ⟨q, hq, hfiles⟩ := processItem_files hp
      exact ih fs1 fs' h (by rw [hfiles]; exact nodup_keysF_setF _ _ _ hnd)

/-! ### Claims C1, C2, C9. -/

/-- **C1** (amended): when `items-srd.json` is missing the script prints the
fixed error message, performs no filesystem writes at all (the state is
returned unchanged), and exits through the bare `exit()` call — whose
status is 0, the same status the success path uses, not a distinct one. -/
theorem c1_missing_input (fs : FS) :
    program none fs = some ⟨[errMsgChars], 0, fs⟩ := rfl

/-- C1 counterexample: the claim asserts the failure-path status is
distinct from the success path's, but both the missing-file path and a
successful run exit with status 0. -/
theorem c1_counterexample :
    (program none emptyFS).map ProgResult.exitCode = some 0 ∧
    (program (some []) emptyFS).map ProgResult.exitCode = some 0 :=
  ⟨rfl, rfl⟩

/-- **C2** (amended): the run merges into the pre-existing state rather
than regenerating it: after a completed run, a path written by the
collection holds exactly the content determined by the collection alone
(`lastOutput`), while any path the collection does not produce keeps
whatever the pre-existing state had there (stale files survive). -/
theorem c2_merge_not_regenerate (items : List JsonObj) (fs fs' : FS)
    (h : run items fs = some fs') (p : List Char) :
    lookupF fs'.files p =
      match lastOutput items p with
      | some c => some c
      | none => lookupF fs.files p :=
  run_lookupF items fs fs' h p

/-- C2 witness: the amended statement applied to a concrete run from a
state holding a stale file. -/
theorem c2_witness :
    lookupF (FS.mk [baseDirChars, weaponDirChars]
        [(stalePathChars, oldChars), (longswordPathChars, expectedLongswordChars)]).files
      longswordPathChars =
      match lastOutput [itemLongsword] longswordPathChars with
      | some c => some c
      | none => lookupF staleFS.files longswordPathChars :=
  c2_merge_not_regenerate [itemLongsword] staleFS _ (by decide) longswordPathChars

/-- C2 counterexample: with the same (empty) collection, runs from two
different pre-existing states end with different output trees, and the
stale file — which the collection does not produce — survives. -/
theorem c2_counterexample :
    run [] staleFS = some staleFS ∧ run [] emptyFS = some emptyFS ∧
    lookupF staleFS.files stalePathChars = some oldChars ∧
    lookupF emptyFS.files stalePathChars = none := by
  refine ⟨rfl, rfl, by decide, rfl⟩

/-- **C9**: on an input that parses to the empty array the loop body never
runs, so nothing is written and no directory is created (not even
`organized_items/` itself, since `os.makedirs` sits inside the loop), and
the fixed success message is still printed with exit status 0. -/
theorem c9_empty_input (fs : FS) :
    program (some []) fs = some ⟨[successMsgChars], 0, fs⟩ := rfl

/-! ### Claims C5, C6, C7, C10. -/

/-- **C5**: right after a record is written, the store holds exactly one
file at its computed path `organized_items/<category_key>/<id_key>.json`,
containing the 2-space-indented serialization of that record — which at
that moment is the most recently processed record sharing the pair; and
the spec's scenario record produces exactly the expected pretty-printed
file. -/
theorem c5_write_guarantee :
    (∀ (fs : FS) (item : JsonObj) (fs' : FS) (p : List Char),
        processItem fs item = some fs' → pathOf item = some p →
        lookupF fs'.files p = some (renderJson 0 (.obj item)) ∧
        ((keysF fs.files).Nodup → countKeyF fs'.files p = 1)) ∧
    run [itemLongsword] emptyFS = some longswordFS := by
  refine ⟨?_, by decide⟩
  intro fs item fs' p hproc hpath
  obtain ⟨q, hq, hfiles⟩ := processItem_files hproc
  rw [hq] at hpath
  have hqp : q = p := Option.some.inj hpath
  subst hqp
  constructor
  · rw [hfiles, lookupF_setF_self]
  · intro hnd
    unfold countKeyF
    rw [hfiles, keysF_setF]
    by_cases hmem : q ∈ keysF fs.files
    · rw [if_pos hmem, filterKey_of_nodup_mem _ _ hnd hmem]
      rfl
    · rw [if_neg hmem, List.filter_append,
        filterKey_of_not_mem _ _ hmem]
      simp

/-- C5 witness: the guarantee applied to the scenario record on the empty
state. -/
theorem c5_witness :
    lookupF longswordFS.files longswordPathChars =
      some (renderJson 0 (.obj itemLongsword)) ∧
    countKeyF longswordFS.files longswordPathChars = 1 := by
  have h := c5_write_guarantee.1 emptyFS itemLongsword longswordFS
    longswordPathChars (by decide) (by decide)
  exact ⟨h.1, h.2 (by decide)⟩

/-- **C6**: the category key is the record's `category` value — defaulting
to `misc` when absent — lowercased with spaces replaced by underscores; in
particular `"Rare Item"` is normalized to `rare_item` and an absent field
yields `misc`. -/
theorem c6_category_key :
    (∀ item : JsonObj, objGet item categoryField = none →
        catKey item = some miscChars) ∧
    (∀ (item : JsonObj) (s : List Char),
        objGet item categoryField = some (.str s) →
        catKey item = some (replaceSpace (lowerStr s))) ∧
    (∀ item : JsonObj, objGet item categoryField = some (.str rareItemChars) →
        catKey item = some rareItemKeyChars) := by
  refine ⟨?_, ?_, ?_⟩
  · intro item h
    simp only [catKey, objGetD, h]
    decide
  · intro item s h
    simp only [catKey, objGetD, h]
  · intro item h
    simp only [catKey, objGetD, h]
    decide

/-- C6 witness: the derivation applied to a record with no `category` and
to one categorized `"Rare Item"`. -/
theorem c6_witness :
    catKey JsonObj.nil = some miscChars ∧
    catKey rareRecord = some rareItemKeyChars :=
  ⟨c6_category_key.1 JsonObj.nil (by decide),
   c6_category_key.2.2 rareRecord (by decide)⟩

/-- **C7**: the id key is the raw `id` value used as a file name with no
normalization (a string id `s` yields `s ++ ".json"`), an absent id
defaults to the literal `unknown_item`, and two id-less records in the
same category collide on `unknown_item.json`, keeping only the
last-written one. -/
theorem c7_id_key :
    (∀ (item : JsonObj) (s : List Char), objGet item idField = some (.str s) →
        fileName item = s ++ jsonExtChars) ∧
    (∀ item : JsonObj, objGet item idField = none →
        fileName item = unknownItemChars ++ jsonExtChars) ∧
    run [idlessA, idlessB] emptyFS = some idlessFS := by
  refine ⟨?_, ?_, by decide⟩
  · intro item s h
    simp only [fileName, idKey, objGetD, h, pyStr]
  · intro item h
    simp only [fileName, idKey, objGetD, h, pyStr]

/-- C7 witness: the default applied to a concrete id-less record. -/
theorem c7_witness :
    fileName idlessA = unknownItemChars ++ jsonExtChars :=
  c7_id_key.2.1 idlessA (by decide)

/-- **C10**: a non-string `id` does not make the script fail: the f-string
converts the value with `str`, so a number `n` yields `str(n) ++ ".json"`,
booleans yield `True.json` / `False.json`, null yields `None.json`; the
record `{"id": 5}` is written to `organized_items/misc/5.json`. -/
theorem c10_nonstring_id :
    (∀ (item : JsonObj) (n : Int), idKey item = .num n →
        fileName item = intChars n ++ jsonExtChars) ∧
    (∀ (item : JsonObj) (b : Bool), idKey item = .bool b →
        fileName item = (if b then trueChars else falseChars) ++ jsonExtChars) ∧
    (∀ item : JsonObj, idKey item = .null →
        fileName item = noneChars ++ jsonExtChars) ∧
    run [numIdItem] emptyFS = some numIdFS := by
  refine ⟨?_, ?_, ?_, by decide⟩
  · intro item n h
    simp only [fileName, h, pyStr, pyRepr]
  · intro item b h
    cases b <;> simp [fileName, h, pyStr, pyRepr]
  · intro item h
    simp only [fileName, h, pyStr, pyRepr]

/-- C10 witness: the conversion applied to the record with numeric id 5. -/
theorem c10_witness :
    fileName numIdItem = intChars 5 ++ jsonExtChars :=
  c10_nonstring_id.1 numIdItem 5 (by decide)

/-! ### Slash bookkeeping: structure of the paths benign records produce. -/

theorem noSlash_cons (c : Char) (t : List Char) :
    noSlash (c :: t) = true ↔ c ≠ '/' ∧ noSlash t = true := by
  simp [noSlash]

theorem noSlash_not_mem (s : List Char) (h : noSlash s = true) : '/' ∉ s := by
  intro hmem
  rcases List.all_eq_true.mp h '/' hmem with h'
  simp at h'

theorem noSlash_append (a b : List Char) :
    noSlash (a ++ b) = (noSlash a && noSlash b) := by
  simp [noSlash, List.all_append]

theorem noSlash_count (s : List Char) (h : noSlash s = true) :
    s.count '/' = 0 :=
  List.count_eq_zero_of_not_mem (noSlash_not_mem s h)

theorem startsSlash_false (s : List Char) (h : noSlash s = true) :
    startsSlash s = false := by
  cases s with
  | nil => rfl
  | cons c t =>
    rcases (noSlash_cons c t).mp h with ⟨hc, _⟩
    simp [startsSlash, hc]

theorem endsSlash_append_right (x y : List Char) (hy : y ≠ [])
    (h : noSlash y = true) : endsSlash (x ++ y) = false := by
  unfold endsSlash
  rw [List.reverse_append]
  cases hr : y.reverse with
  | nil => exact absurd (by simpa using congrArg List.reverse hr) hy
  | cons c t =>
    have hc : c ∈ y := by
      have : c ∈ y.reverse := by rw [hr]; exact List.mem_cons_self c t
      simpa using this
    have hcne : c ≠ '/' := fun hh => noSlash_not_mem y h (hh ▸ hc)
    simp [startsSlash, hcne]

theorem joinPath_base (cat : List Char) (h : noSlash cat = true) :
    joinPath baseDirChars cat = baseDirChars ++ '/' :: cat := by
  have h1 : startsSlash cat = false := startsSlash_false cat h
  have h2 : baseDirChars ≠ [] := by decide
  have h3 : endsSlash baseDirChars = false := by decide
  simp [joinPath, h1, h2, h3]

theorem joinPath_under (cat f : List Char) (hcat : noSlash cat = true)
    (hcne : cat ≠ []) (hf : noSlash f = true) :
    joinPath (baseDirChars ++ '/' :: cat) f =
      (baseDirChars ++ '/' :: cat) ++ '/' :: f := by
  have h1 : startsSlash f = false := startsSlash_false f hf
  have h2 : baseDirChars ++ '/' :: cat ≠ [] := by simp
  have h3 : endsSlash (baseDirChars ++ '/' :: cat) = false := by
    have : baseDirChars ++ '/' :: cat = (baseDirChars ++ ['/']) ++ cat := by simp
    rw [this]
    exact endsSlash_append_right _ _ hcne hcat
  simp [joinPath, h1, h2, h3]

theorem dropWhile_append_all (p : Char → Bool) (l m : List Char)
    (h : ∀ c ∈ l, p c = true) :
    List.dropWhile p (l ++ m) = List.dropWhile p m := by
  induction l with
  | nil => rfl
  | cons c t ih =>
    rw [List.cons_append, List.dropWhile_cons, if_pos (h c (List.mem_cons_self c t))]
    exact ih (fun d hd => h d (List.mem_cons_of_mem c hd))

theorem parentDir_append (a f : List Char) (hf : noSlash f = true) :
    parentDir (a ++ '/' :: f) = a := by
  unfold parentDir
  rw [List.reverse_append, List.reverse_cons, List.append_assoc]
  rw [dropWhile_append_all _ f.reverse _ ?_]
  · rw [List.singleton_append, List.dropWhile_cons]
    simp
  · intro c hc
    have : c ≠ '/' := fun hh => noSlash_not_mem f hf (hh ▸ (List.mem_reverse.mp hc))
    simp [this]

theorem dirChainAux_noSlash : ∀ (s acc r : List Char), noSlash s = true →
    dirChainAux acc (s ++ r) = dirChainAux (acc ++ s) r := by
  intro s
  induction s with
  | nil => intro acc r _; simp
  | cons c t ih =>
    intro acc r h
    rcases (noSlash_cons c t).mp h with ⟨hc, ht⟩
    rw [List.cons_append,
      show dirChainAux acc (c :: (t ++ r)) = dirChainAux (acc ++ [c]) (t ++ r) by
        simp [dirChainAux, hc],
      ih (acc ++ [c]) r ht]
    simp

theorem dirChainAux_noSlash_nil (s acc : List Char) (h : noSlash s = true) :
    dirChainAux acc s = dirChainAux (acc ++ s) [] := by
  have hh := dirChainAux_noSlash s acc [] h
  simpa using hh

theorem dirChain_folder (cat : List Char) (h : noSlash cat = true)
    (hne : cat ≠ []) :
    dirChain (baseDirChars ++ '/' :: cat) =
      [baseDirChars, baseDirChars ++ '/' :: cat] := by
  have hends : endsSlash (baseDirChars ++ '/' :: cat) = false := by
    rw [show baseDirChars ++ '/' :: cat = (baseDirChars ++ ['/']) ++ cat by simp]
    exact endsSlash_append_right _ _ hne h
  unfold dirChain
  rw [dirChainAux_noSlash baseDirChars [] ('/' :: cat) (by decide),
    List.nil_append,
    show dirChainAux baseDirChars ('/' :: cat) =
        (if baseDirChars = [] then [] else [baseDirChars]) ++
          dirChainAux (baseDirChars ++ ['/']) cat by simp [dirChainAux],
    if_neg (by decide : ¬baseDirChars = []),
    dirChainAux_noSlash_nil cat (baseDirChars ++ ['/']) h,
    show baseDirChars ++ ['/'] ++ cat = baseDirChars ++ '/' :: cat by simp]
  simp [dirChainAux, hends]

theorem mem_addDirs : ∀ (ds dirs : List (List Char)) (x : List Char),
    x ∈ addDirs dirs ds ↔ x ∈ dirs ∨ x ∈ ds := by
  intro ds
  induction ds with
  | nil => intro dirs x; simp [addDirs]
  | cons d rest ih =>
    intro dirs x
    rw [show addDirs dirs (d :: rest) =
        addDirs (if d ∈ dirs then dirs else dirs ++ [d]) rest from rfl, ih]
    by_cases hd : d ∈ dirs
    · rw [if_pos hd]
      constructor
      · rintro (hx | hx)
        · exact Or.inl hx
        · exact Or.inr (List.mem_cons_of_mem d hx)
      · rintro (hx | hx)
        · exact Or.inl hx
        · rcases List.mem_cons.mp hx with rfl | hx
          · exact Or.inl hd
          · exact Or.inr hx
    · rw [if_neg hd]
      constructor
      · rintro (hx | hx)
        · rcases List.mem_append.mp hx with hx | hx
          · exact Or.inl hx
          · exact Or.inr (by simpa using Or.inl (by simpa using hx))
        · exact Or.inr (List.mem_cons_of_mem d hx)
      · rintro (hx | hx)
        · exact Or.inl (List.mem_append.mpr (Or.inl hx))
        · rcases List.mem_cons.mp hx with rfl | hx
          · exact Or.inl (List.mem_append.mpr (Or.inr (by simp)))
          · exact Or.inr hx

/-! ### Benign records always succeed and preserve the invariant. -/

theorem okItemB_spec (item : JsonObj) (h : okItemB item = true) :
    ∃ cat s, catKey item = some cat ∧ cat ≠ [] ∧ noSlash cat = true ∧
      idKey item = .str s ∧ noSlash s = true := by
  unfold okItemB at h
  split at h
  · simp at h
  · rename_i cat hc
    cases hid : idKey item <;> rw [hid] at h <;>
      simp only [Bool.and_eq_true] at h
    case str s =>
      rcases h with ⟨⟨hne, hns⟩, hs⟩
      exact ⟨cat, s, hc, by simpa using hne, hns, rfl, hs⟩
    all_goals simp at h

theorem count_slash_folder (cat : List Char) (h : noSlash cat = true) :
    (baseDirChars ++ '/' :: cat).count '/' = 1 := by
  rw [List.count_append, List.count_cons]
  rw [noSlash_count cat h, noSlash_count baseDirChars (by decide)]
  simp

theorem count_slash_file (cat f : List Char) (hcat : noSlash cat = true)
    (hf : noSlash f = true) :
    ((baseDirChars ++ '/' :: cat) ++ '/' :: f).count '/' = 2 := by
  rw [List.count_append, count_slash_folder cat hcat, List.count_cons]
  rw [noSlash_count f hf]
  simp

theorem processItem_ok (fs : FS) (item : JsonObj) (hfs : GoodFS fs)
    (hok : okItemB item = true) :
    ∃ fs', processItem fs item = some fs' ∧ GoodFS fs' := by
  obtain ⟨cat, s, hc, hcne, hcns, hid, hsns⟩ := okItemB_spec item hok
  obtain ⟨hfilesG, hdirsG⟩ := hfs
  have hfn : fileName item = s ++ jsonExtChars := by
    simp [fileName, hid, pyStr]
  have hfns : noSlash (fileName item) = true := by
    rw [hfn, noSlash_append, hsns]
    decide
  have hchain := dirChain_folder cat hcns hcne
  have hlookupNone : ∀ d, d.count '/' ≤ 1 → (lookupF fs.files d).isSome = false := by
    intro d hd
    cases hl : (lookupF fs.files d).isSome with
    | false => rfl
    | true =>
      have := hfilesG d (mem_of_lookupF_isSome fs.files d hl)
      omega
  have hany : ([baseDirChars, baseDirChars ++ '/' :: cat].any
      fun d => (lookupF fs.files d).isSome) = false := by
    rw [List.any_cons, List.any_cons, List.any_nil,
      hlookupNone baseDirChars (by decide),
      hlookupNone _ (le_of_eq (count_slash_folder cat hcns))]
    rfl
  have hmk : makedirs fs (baseDirChars ++ '/' :: cat) =
      some ⟨addDirs fs.dirs [baseDirChars, baseDirChars ++ '/' :: cat], fs.files⟩ := by
    unfold makedirs
    rw [hchain, hany]
    simp
  have hdirs1 : ∀ d, d ∈ addDirs fs.dirs [baseDirChars, baseDirChars ++ '/' :: cat] ↔
      d ∈ fs.dirs ∨ d = baseDirChars ∨ d = baseDirChars ++ '/' :: cat := by
    intro d
    rw [mem_addDirs]
    simp
  have hfp2 : ((baseDirChars ++ '/' :: cat) ++ '/' :: fileName item).count '/' = 2 :=
    count_slash_file cat (fileName item) hcns hfns
  have hnotdir : ((baseDirChars ++ '/' :: cat) ++ '/' :: fileName item) ∉
      addDirs fs.dirs [baseDirChars, baseDirChars ++ '/' :: cat] := by
    intro hh
    rcases (hdirs1 _).mp hh with hh | hh | hh
    · have := hdirsG _ hh
      omega
    · rw [hh, noSlash_count baseDirChars (by decide)] at hfp2
      cases hfp2
    · rw [hh, count_slash_folder cat hcns] at hfp2
      cases hfp2
  have hparmem :
      parentDir ((baseDirChars ++ '/' :: cat) ++ '/' :: fileName item) = [] ∨
      parentDir ((baseDirChars ++ '/' :: cat) ++ '/' :: fileName item) ∈
        addDirs fs.dirs [baseDirChars, baseDirChars ++ '/' :: cat] :=
    Or.inr (by
      rw [parentDir_append _ _ hfns]
      exact (hdirs1 _).mpr (Or.inr (Or.inr rfl)))
  have how : openWrite ⟨addDirs fs.dirs [baseDirChars, baseDirChars ++ '/' :: cat], fs.files⟩
      ((baseDirChars ++ '/' :: cat) ++ '/' :: fileName item)
      (renderJson 0 (.obj item)) =
      some ⟨addDirs fs.dirs [baseDirChars, baseDirChars ++ '/' :: cat],
        setF fs.files ((baseDirChars ++ '/' :: cat) ++ '/' :: fileName item)
          (renderJson 0 (.obj item))⟩ := by
    unfold openWrite
    rw [if_neg hnotdir, if_pos hparmem]
  refine ⟨⟨addDirs fs.dirs [baseDirChars, baseDirChars ++ '/' :: cat],
      setF fs.files ((baseDirChars ++ '/' :: cat) ++ '/' :: fileName item)
        (renderJson 0 (.obj item))⟩, ?_, ?_, ?_⟩
  · simp only [processItem, hc]
    rw [joinPath_base cat hcns, hmk, joinPath_under cat (fileName item) hcns hcne hfns]
    exact how
  · intro k hk
    rcases (mem_keysF_setF fs.files _ _ k).mp hk with hk | rfl
    · exact hfilesG k hk
    · exact hfp2
  · intro d hd
    rcases (hdirs1 d).mp hd with hd | rfl | rfl
    · exact hdirsG d hd
    · rw [noSlash_count baseDirChars (by decide)]
      omega
    · rw [count_slash_folder cat hcns]

theorem run_ok : ∀ (items : List JsonObj) (fs : FS), GoodFS fs →
    (∀ i ∈ items, okItemB i = true) →
    ∃ fs', run items fs = some fs' ∧ GoodFS fs' := by
  intro items
  induction items with
  | nil => intro fs hfs _; exact ⟨fs, rfl, hfs⟩
  | cons item rest ih =>
    intro fs hfs hok
    obtain ⟨fs1, hp, hfs1⟩ :=
      processItem_ok fs item hfs (hok item (List.mem_cons_self item rest))
    obtain ⟨fs', hrun, hfs'⟩ :=
      ih fs1 hfs1 (fun i hi => hok i (List.mem_cons_of_mem item hi))
    refine ⟨fs', ?_, hfs'⟩
    unfold run
    rw [hp]
    exact hrun

theorem goodFS_empty : GoodFS emptyFS := by
  constructor
  · intro k hk; simp [emptyFS, keysF] at hk
  · intro d hd; simp [emptyFS] at hd

/-! ### Injectivity of the path map on benign pairs. -/

theorem slashSplit : ∀ (a c b d : List Char), noSlash a = true →
    noSlash c = true → a ++ '/' :: b = c ++ '/' :: d → a = c ∧ b = d := by
  intro a
  induction a with
  | nil =>
    intro c b d _ hc h
    cases c with
    | nil => exact ⟨rfl, by simpa using h⟩
    | cons c0 ct =>
      rw [List.nil_append, List.cons_append] at h
      have : c0 = '/' := (List.cons.inj h).1.symm
      exact absurd (this ▸ List.mem_cons_self c0 ct) (noSlash_not_mem _ hc)
  | cons a0 at' ih =>
    intro c b d ha hc h
    cases c with
    | nil =>
      rw [List.nil_append, List.cons_append] at h
      have : a0 = '/' := (List.cons.inj h).1
      exact absurd (this ▸ List.mem_cons_self a0 at') (noSlash_not_mem _ ha)
    | cons c0 ct =>
      rw [List.cons_append, List.cons_append] at h
      obtain ⟨h0, ht⟩ := List.cons.inj h
      obtain ⟨h1, h2⟩ := ih ct b d ((noSlash_cons a0 at').mp ha).2
        ((noSlash_cons c0 ct).mp hc).2 ht
      exact ⟨by rw [h0, h1], h2⟩

theorem pathFn_str_inj (c1 s1 c2 s2 : List Char)
    (hc1 : noSlash c1 = true) (hn1 : c1 ≠ []) (hs1 : noSlash s1 = true)
    (hc2 : noSlash c2 = true) (hn2 : c2 ≠ []) (hs2 : noSlash s2 = true)
    (h : pathFn (c1, .str s1) = pathFn (c2, .str s2)) :
    c1 = c2 ∧ s1 = s2 := by
  unfold pathFn at h
  simp only [pyStr] at h
  have hf1 : noSlash (s1 ++ jsonExtChars) = true := by
    rw [noSlash_append, hs1]; decide
  have hf2 : noSlash (s2 ++ jsonExtChars) = true := by
    rw [noSlash_append, hs2]; decide
  rw [joinPath_base c1 hc1, joinPath_base c2 hc2,
    joinPath_under c1 _ hc1 hn1 hf1, joinPath_under c2 _ hc2 hn2 hf2] at h
  rw [List.append_assoc, List.append_assoc] at h
  have h2 := List.append_cancel_left h
  rw [List.cons_append, List.cons_append] at h2
  have h3 := (List.cons.inj h2).2
  obtain ⟨hcc, hss⟩ := slashSplit c1 c2 _ _ hc1 hc2 h3
  exact ⟨hcc, List.append_cancel_right hss⟩

theorem pathOf_eq_pairOf (item : JsonObj) :
    pathOf item = (pairOf item).map pathFn := by
  unfold pathOf pairOf pathFn fileName
  cases catKey item <;> simp

theorem filterMap_pathOf_eq (items : List JsonObj) :
    items.filterMap pathOf = (items.filterMap pairOf).map pathFn := by
  induction items with
  | nil => rfl
  | cons item rest ih =>
    rw [List.filterMap_cons, List.filterMap_cons, pathOf_eq_pairOf]
    cases pairOf item with
    | none => simpa using ih
    | some pr => simp [ih]

theorem pair_shape (items : List JsonObj)
    (hok : ∀ i ∈ items, okItemB i = true) (p : List Char × Json)
    (hp : p ∈ items.filterMap pairOf) :
    ∃ cat s, p = (cat, Json.str s) ∧ cat ≠ [] ∧ noSlash cat = true ∧
      noSlash s = true := by
  rcases List.mem_filterMap.mp hp with ⟨i, hi, hpi⟩
  obtain ⟨cat, s, hc, hcne, hcns, hid, hsns⟩ := okItemB_spec i (hok i hi)
  unfold pairOf at hpi
  rw [hc] at hpi
  refine ⟨cat, s, ?_, hcne, hcns, hsns⟩
  have := Option.some.inj hpi
  rw [← this, hid]

/-! ### The content at a path after a run is the last matching record. -/

theorem getLast?_cons_match {α : Type} (a : α) (l : List α) :
    (a :: l).getLast? =
      match l.getLast? with
      | some x => some x
      | none => some a := by
  cases l with
  | nil => rfl
  | cons b t =>
    rw [List.getLast?_cons_cons]
    cases hl : (b :: t).getLast? with
    | none => simp at hl
    | some x => rfl

theorem lastOutput_filter (items : List JsonObj) (p : List Char) :
    lastOutput items p =
      ((items.filter (fun i => decide (pathOf i = some p))).getLast?).map
        (fun i => renderJson 0 (.obj i)) := by
  induction items with
  | nil => rfl
  | cons item rest ih =>
    show (match lastOutput rest p with
      | some c => some c
      | none => if pathOf item = some p
          then some (renderJson 0 (.obj item)) else none) = _
    by_cases hpi : pathOf item = some p
    · have hfc : (item :: rest).filter (fun i => decide (pathOf i = some p)) =
          item :: rest.filter (fun i => decide (pathOf i = some p)) := by
        simp [List.filter_cons, hpi]
      rw [hfc, getLast?_cons_match]
      cases hl : (rest.filter (fun i => decide (pathOf i = some p))).getLast? with
      | none => rw [ih, hl]; simp [hpi]
      | some x => rw [ih, hl]; rfl
    · have hfc : (item :: rest).filter (fun i => decide (pathOf i = some p)) =
          rest.filter (fun i => decide (pathOf i = some p)) := by
        simp [List.filter_cons, hpi]
      rw [hfc, ← ih]
      cases lastOutput rest p with
      | some c => rfl
      | none => simp [hpi]

theorem filter_path_len_le_one (items : List JsonObj) (p : List Char)
    (hnd : (items.filterMap pathOf).Nodup) :
    (items.filter (fun i => decide (pathOf i = some p))).length ≤ 1 := by
  induction items with
  | nil => simp
  | cons item rest ih =>
    rw [List.filterMap_cons] at hnd
    cases hpi : pathOf item with
    | none =>
      rw [hpi] at hnd
      rw [List.filter_cons, if_neg (by simp [hpi])]
      exact ih hnd
    | some q =>
      rw [hpi] at hnd
      rcases List.nodup_cons.mp hnd with ⟨hq, hndr⟩
      by_cases hqp : q = p
      · subst hqp
        have hfc : (item :: rest).filter (fun i => decide (pathOf i = some q)) =
            item :: rest.filter (fun i => decide (pathOf i = some q)) := by
          simp [List.filter_cons, hpi]
        rw [hfc]
        have hrest : rest.filter (fun i => decide (pathOf i = some q)) = [] := by
          rw [List.filter_eq_nil_iff]
          intro j hj hdec
          rw [decide_eq_true_eq] at hdec
          exact hq (List.mem_filterMap.mpr ⟨j, hj, hdec⟩)
        rw [hrest]
        simp
      · have hfc : (item :: rest).filter (fun i => decide (pathOf i = some p)) =
            rest.filter (fun i => decide (pathOf i = some p)) := by
          simp [List.filter_cons, hpi, hqp]
        rw [hfc]
        exact ih hndr

theorem perm_len_le_one_eq {α : Type} (l1 l2 : List α) (h : l1.Perm l2)
    (hl : l1.length ≤ 1) : l1 = l2 := by
  cases l1 with
  | nil => exact (h.symm.eq_nil).symm
  | cons a t =>
    cases t with
    | nil => exact (List.perm_singleton.mp h.symm).symm
    | cons b u => simp at hl

/-! ### Claims C3 and C4. -/

/-- **C3** (amended): processing order is irrelevant — any permutation of
the records yields an identical set of output files with identical
contents — provided every record is benign (nonempty slash-free category
key, slash-free string id) and no two records map to the same output path;
with duplicate `(category_key, id_key)` pairs the overwrite order makes
the final content order-dependent. -/
theorem c3_order_irrelevant (l1 l2 : List JsonObj) (hperm : l1.Perm l2)
    (hok : ∀ i ∈ l1, okItemB i = true)
    (hnd : (l1.filterMap pathOf).Nodup) :
    ∃ fs1 fs2, run l1 emptyFS = some fs1 ∧ run l2 emptyFS = some fs2 ∧
      ∀ p, lookupF fs1.files p = lookupF fs2.files p := by
  have hok2 : ∀ i ∈ l2, okItemB i = true :=
    fun i hi => hok i (hperm.mem_iff.mpr hi)
  obtain ⟨fs1, h1, _⟩ := run_ok l1 emptyFS goodFS_empty hok
  obtain ⟨fs2, h2, _⟩ := run_ok l2 emptyFS goodFS_empty hok2
  refine ⟨fs1, fs2, h1, h2, ?_⟩
  intro p
  have e1 := run_lookupF l1 emptyFS fs1 h1 p
  have e2 := run_lookupF l2 emptyFS fs2 h2 p
  rw [lastOutput_filter] at e1 e2
  have hfeq : l1.filter (fun i => decide (pathOf i = some p)) =
      l2.filter (fun i => decide (pathOf i = some p)) :=
    perm_len_le_one_eq _ _ (hperm.filter _) (filter_path_len_le_one l1 p hnd)
  rw [e1, e2, hfeq]

/-- C3 witness: the amended statement applied to two benign records with
distinct ids, in both orders. -/
theorem c3_witness :
    ∃ fs1 fs2, run [permA, permB] emptyFS = some fs1 ∧
      run [permB, permA] emptyFS = some fs2 ∧
      ∀ p, lookupF fs1.files p = lookupF fs2.files p :=
  c3_order_irrelevant [permA, permB] [permB, permA]
    (List.Perm.swap permB permA []) (by decide) (by decide)

/-- C3 counterexample: two records sharing the pair `(misc, "x")` with
different contents give different trees under the two orders — the file
holds whichever record came last. -/
theorem c3_counterexample :
    List.Perm [dupA, dupB] [dupB, dupA] ∧
    (run [dupA, dupB] emptyFS).map (fun fs => lookupF fs.files xJsonPathChars) =
      some (some (renderJson 0 (.obj dupB))) ∧
    (run [dupB, dupA] emptyFS).map (fun fs => lookupF fs.files xJsonPathChars) =
      some (some (renderJson 0 (.obj dupA))) ∧
    renderJson 0 (.obj dupA) ≠ renderJson 0 (.obj dupB) := by
  exact ⟨List.Perm.swap dupB dupA [], by decide, by decide, by decide⟩

/-- **C4** (amended): for benign records (nonempty slash-free category
keys, slash-free string ids) the run completes and the number of output
files equals the number of distinct `(category_key, id_key)` pairs; with
non-string ids (e.g. `5` vs `"5"`) or separators in keys, distinct pairs
can collide on one path, so in general the count is the number of
distinct derived paths. -/
theorem c4_file_count (items : List JsonObj)
    (hok : ∀ i ∈ items, okItemB i = true) :
    ∃ fs', run items emptyFS = some fs' ∧
      fs'.files.length = ((items.filterMap pairOf).dedup).length := by
  obtain ⟨fs', hrun, _⟩ := run_ok items emptyFS goodFS_empty hok
  refine ⟨fs', hrun, ?_⟩
  have hnd := run_nodup_keysF items emptyFS fs' hrun (by simp [emptyFS, keysF])
  have hmem := run_mem_keysF items emptyFS fs' hrun
  have hperm : (keysF fs'.files).Perm ((items.filterMap pathOf).dedup) := by
    rw [List.perm_ext_iff_of_nodup hnd (List.nodup_dedup _)]
    intro a
    rw [List.mem_dedup, hmem a]
    simp [emptyFS, keysF]
  have hinj : ((items.filterMap pairOf).map pathFn).toFinset.card =
      (items.filterMap pairOf).toFinset.card := by
    have htf : ((items.filterMap pairOf).map pathFn).toFinset =
        (items.filterMap pairOf).toFinset.image pathFn := by
      ext x
      simp only [List.mem_toFinset, Finset.mem_image, List.mem_map]
    rw [htf]
    apply Finset.card_image_of_injOn
    intro p1 hp1 p2 hp2 hEq
    obtain ⟨c1, s1, rfl, hn1, hc1, hs1⟩ :=
      pair_shape items hok p1 (List.mem_toFinset.mp hp1)
    obtain ⟨c2, s2, rfl, hn2, hc2, hs2⟩ :=
      pair_shape items hok p2 (List.mem_toFinset.mp hp2)
    obtain ⟨hcc, hss⟩ := pathFn_str_inj c1 s1 c2 s2 hc1 hn1 hs1 hc2 hn2 hs2 hEq
    rw [hcc, hss]
  calc fs'.files.length
      = (keysF fs'.files).length := (List.length_map _ _).symm
    _ = ((items.filterMap pathOf).dedup).length := hperm.length_eq
    _ = (items.filterMap pathOf).toFinset.card := (List.card_toFinset _).symm
    _ = ((items.filterMap pairOf).map pathFn).toFinset.card := by
        rw [filterMap_pathOf_eq]
    _ = (items.filterMap pairOf).toFinset.card := hinj
    _ = ((items.filterMap pairOf).dedup).length := List.card_toFinset _

/-- C4 witness: the amended count applied to two benign records with
distinct pairs. -/
theorem c4_witness :
    ∃ fs', run [permA, permB] emptyFS = some fs' ∧
      fs'.files.length = (([permA, permB].filterMap pairOf).dedup).length :=
  c4_file_count [permA, permB] (by decide)

/-- C4 counterexample: the records `{"id": 5}` and `{"id": "5"}` have two
distinct `(category_key, id_key)` pairs, yet the completed run produces a
single file (both ids stringify to `5.json`). -/
theorem c4_counterexample :
    (run [numIdItem, strIdItem] emptyFS).map (fun fs => fs.files.length) =
      some 1 ∧
    (([numIdItem, strIdItem].filterMap pairOf).dedup).length = 2 := by
  exact ⟨by decide, by decide⟩

/-! ### Toward the round trip (C8): characters, whitespace, digits. -/

theorem char_valid_ranges (c : Char) :
    c.toNat < 0xD800 ∨ (0xDFFF < c.toNat ∧ c.toNat < 0x110000) := by
  rcases c.valid with h | h
  · left; exact h
  · right; exact h

theorem isDigitChar_iff (c : Char) :
    isDigitChar c = true ↔ 48 ≤ c.toNat ∧ c.toNat ≤ 57 := by
  simp [isDigitChar]

theorem toNat_eq_of_eq {c d : Char} (h : c = d) : c.toNat = d.toNat := by
  rw [h]

theorem digit_not_ws (c : Char) (h : isDigitChar c = true) :
    isWsChar c = false := by
  have hb := (isDigitChar_iff c).mp h
  have h1 : c ≠ ' ' := fun hh => by have := toNat_eq_of_eq hh; simp at this; omega
  have h2 : c ≠ '\n' := fun hh => by have := toNat_eq_of_eq hh; simp at this; omega
  have h3 : c ≠ '\t' := fun hh => by have := toNat_eq_of_eq hh; simp at this; omega
  have h4 : c ≠ '\r' := fun hh => by have := toNat_eq_of_eq hh; simp at this; omega
  simp [isWsChar, h1, h2, h3, h4]

theorem skipWs_cons_of_not_ws (c : Char) (s : List Char)
    (h : isWsChar c = false) : skipWs (c :: s) = c :: s := by
  simp [skipWs, h]

theorem skipWs_append_ws (w s : List Char) (h : ∀ c ∈ w, isWsChar c = true) :
    skipWs (w ++ s) = skipWs s := by
  induction w with
  | nil => rfl
  | cons c t ih =>
    rw [List.cons_append,
      show skipWs (c :: (t ++ s)) = skipWs (t ++ s) by
        simp [skipWs, h c (List.mem_cons_self c t)]]
    exact ih (fun d hd => h d (List.mem_cons_of_mem c hd))

theorem ws_indent (n : Nat) : ∀ c ∈ indentChars n, isWsChar c = true := by
  intro c hc
  rw [List.eq_of_mem_replicate hc]
  decide

theorem digitChar_toNat (d : Nat) (h : d < 10) : (digitChar d).toNat = 48 + d := by
  unfold digitChar
  have hv : (48 + d).isValidChar := Or.inl (by omega)
  rw [Char.ofNat, dif_pos hv]
  rfl

theorem isDigitChar_digitChar (d : Nat) (h : d < 10) :
    isDigitChar (digitChar d) = true := by
  rw [isDigitChar_iff, digitChar_toNat d h]
  omega

theorem digitVal_digitChar (d : Nat) (h : d < 10) :
    digitVal (digitChar d) = d := by
  unfold digitVal
  rw [digitChar_toNat d h]
  omega

theorem natCharsAux_digits : ∀ (fuel n : Nat), n < fuel →
    ∀ c ∈ natCharsAux fuel n, isDigitChar c = true := by
  intro fuel
  induction fuel with
  | zero => intro n h; omega
  | succ fuel ih =>
    intro n h c hc
    unfold natCharsAux at hc
    by_cases h10 : n < 10
    · rw [if_pos h10] at hc
      rcases List.mem_singleton.mp hc with rfl
      exact isDigitChar_digitChar n h10
    · rw [if_neg h10] at hc
      rcases List.mem_append.mp hc with hc | hc
      · exact ih (n / 10) (by omega) c hc
      · rcases List.mem_singleton.mp hc with rfl
        exact isDigitChar_digitChar (n % 10) (Nat.mod_lt n (by omega))

theorem natCharsAux_ne_nil (fuel n : Nat) (h : n < fuel) :
    natCharsAux fuel n ≠ [] := by
  cases fuel with
  | zero => omega
  | succ fuel =>
    unfold natCharsAux
    by_cases h10 : n < 10
    · rw [if_pos h10]; simp
    · rw [if_neg h10]; simp

theorem parseDigitsAcc_stop (rest : List Char) (acc : Nat)
    (h : notDigitHead rest) : parseDigitsAcc acc rest = (acc, rest) := by
  cases rest with
  | nil => rfl
  | cons c r =>
    unfold notDigitHead at h
    simp [parseDigitsAcc, h]

theorem parseDigitsAcc_append (ds : List Char)
    (h : ∀ c ∈ ds, isDigitChar c = true) (rest : List Char) (acc : Nat) :
    parseDigitsAcc acc (ds ++ rest) =
      parseDigitsAcc (parseDigitsAcc acc ds).1 rest := by
  induction ds generalizing acc with
  | nil => rfl
  | cons d ds' ih =>
    have hd := h d (List.mem_cons_self d ds')
    rw [List.cons_append,
      show parseDigitsAcc acc (d :: (ds' ++ rest)) =
        parseDigitsAcc (acc * 10 + digitVal d) (ds' ++ rest) by
          simp [parseDigitsAcc, hd],
      show parseDigitsAcc acc (d :: ds') =
        parseDigitsAcc (acc * 10 + digitVal d) ds' by
          simp [parseDigitsAcc, hd]]
    exact ih (fun c hc => h c (List.mem_cons_of_mem d hc)) _

theorem natCharsAux_val : ∀ (fuel n acc : Nat), n < fuel →
    (parseDigitsAcc acc (natCharsAux fuel n)).1 =
      acc * 10 ^ (natCharsAux fuel n).length + n := by
  intro fuel
  induction fuel with
  | zero => intro n acc h; omega
  | succ fuel ih =>
    intro n acc h
    unfold natCharsAux
    by_cases h10 : n < 10
    · rw [if_pos h10]
      rw [show parseDigitsAcc acc [digitChar n] =
          parseDigitsAcc (acc * 10 + digitVal (digitChar n)) [] by
            simp [parseDigitsAcc, isDigitChar_digitChar n h10]]
      rw [digitVal_digitChar n h10]
      simp [parseDigitsAcc]
    · rw [if_neg h10]
      have hd10 : n / 10 < fuel := by
        have := Nat.div_lt_self (by omega : 0 < n) (by omega : 1 < 10)
        omega
      rw [parseDigitsAcc_append _ (natCharsAux_digits fuel (n / 10) hd10) _ acc,
        ih (n / 10) acc hd10]
      rw [show parseDigitsAcc (acc * 10 ^ (natCharsAux fuel (n / 10)).length + n / 10)
          [digitChar (n % 10)] =
          parseDigitsAcc ((acc * 10 ^ (natCharsAux fuel (n / 10)).length + n / 10) * 10 +
            digitVal (digitChar (n % 10))) [] by
            simp [parseDigitsAcc, isDigitChar_digitChar (n % 10) (Nat.mod_lt n (by omega))]]
      rw [digitVal_digitChar (n % 10) (Nat.mod_lt n (by omega))]
      simp only [parseDigitsAcc, List.length_append, List.length_cons,
        List.length_nil]
      have hdm : 10 * (n / 10) + n % 10 = n := Nat.div_add_mod n 10
      have hpow : (10 : Nat) ^ ((natCharsAux fuel (n / 10)).length + (0 + 1)) =
          10 ^ (natCharsAux fuel (n / 10)).length * 10 := by
        rw [Nat.zero_add, Nat.pow_succ]
      rw [hpow]
      calc (acc * 10 ^ (natCharsAux fuel (n / 10)).length + n / 10) * 10 + n % 10
          = acc * (10 ^ (natCharsAux fuel (n / 10)).length * 10) +
            (10 * (n / 10) + n % 10) := by ring
        _ = acc * (10 ^ (natCharsAux fuel (n / 10)).length * 10) + n := by rw [hdm]

theorem parseNat_natChars (n : Nat) (rest : List Char) (h : notDigitHead rest) :
    parseNatChars (natChars n ++ rest) = some (n, rest) := by
  unfold natChars
  cases he : natCharsAux (n + 1) n with
  | nil => exact absurd he (natCharsAux_ne_nil (n + 1) n (by omega))
  | cons c ds =>
    have hdigits : ∀ d ∈ c :: ds, isDigitChar d = true := by
      rw [← he]; exact natCharsAux_digits (n + 1) n (by omega)
    have hc := hdigits c (List.mem_cons_self c ds)
    have hval : (parseDigitsAcc 0 (c :: ds)).1 = n := by
      rw [← he, natCharsAux_val (n + 1) n 0 (by omega)]
      simp
    rw [List.cons_append]
    rw [show parseNatChars (c :: (ds ++ rest)) =
        some (parseDigitsAcc (digitVal c) (ds ++ rest)) by
          simp [parseNatChars, hc]]
    rw [show parseDigitsAcc (digitVal c) (ds ++ rest) =
        parseDigitsAcc 0 ((c :: ds) ++ rest) by
          rw [List.cons_append]
          simp [parseDigitsAcc, hc]]
    rw [parseDigitsAcc_append _ hdigits _ 0, parseDigitsAcc_stop rest _ h, hval]

theorem digit_ne_dash (c : Char) (h : isDigitChar c = true) : c ≠ '-' := by
  intro hh
  have := toNat_eq_of_eq hh
  have hb := (isDigitChar_iff c).mp h
  simp at this
  omega

theorem parseInt_intChars (n : Int) (rest : List Char) (h : notDigitHead rest) :
    parseIntChars (intChars n ++ rest) = some (n, rest) := by
  unfold intChars
  by_cases hn : n < 0
  · rw [if_pos hn, List.cons_append]
    rw [show parseIntChars ('-' :: (natChars n.natAbs ++ rest)) =
        match parseNatChars (natChars n.natAbs ++ rest) with
        | some (m, r) => some (-(m : Int), r)
        | none => none by simp [parseIntChars]]
    rw [parseNat_natChars n.natAbs rest h]
    show some (-((n.natAbs : Nat) : Int), rest) = some (n, rest)
    have : -((n.natAbs : Nat) : Int) = n := by omega
    rw [this]
  · rw [if_neg hn]
    cases he : natChars n.natAbs with
    | nil =>
      exact absurd he (by unfold natChars; exact natCharsAux_ne_nil _ _ (by omega))
    | cons c ds =>
      have hc : isDigitChar c = true := by
        have := natCharsAux_digits (n.natAbs + 1) n.natAbs (by omega) c
        unfold natChars at he
        rw [he] at this
        exact this (List.mem_cons_self c ds)
      rw [List.cons_append]
      rw [show parseIntChars (c :: (ds ++ rest)) =
          match parseNatChars (c :: (ds ++ rest)) with
          | some (m, r) => some ((m : Int), r)
          | none => none by simp [parseIntChars, digit_ne_dash c hc]]
      rw [show (c :: (ds ++ rest)) = natChars n.natAbs ++ rest by rw [he]; rfl]
      rw [parseNat_natChars n.natAbs rest h]
      show some (((n.natAbs : Nat) : Int), rest) = some (n, rest)
      have : ((n.natAbs : Nat) : Int) = n := by omega
      rw [this]


/-! ### Round trip for escaped strings. -/

theorem hexVal_hexDigitChar : ∀ d : Nat, d < 16 →
    hexVal (hexDigitChar d) = some d := by decide

theorem hex4Val_encode (m : Nat) (hm : m < 0x10000) :
    hex4Val (hexDigitChar (m / 4096 % 16)) (hexDigitChar (m / 256 % 16))
      (hexDigitChar (m / 16 % 16)) (hexDigitChar (m % 16)) = some m := by
  unfold hex4Val
  rw [hexVal_hexDigitChar _ (by omega), hexVal_hexDigitChar _ (by omega),
    hexVal_hexDigitChar _ (by omega), hexVal_hexDigitChar _ (by omega)]
  show some (m / 4096 % 16 * 4096 + m / 256 % 16 * 256 + m / 16 % 16 * 16 + m % 16)
    = some m
  exact congrArg some (by omega)

theorem hex4_cons (m : Nat) (tail : List Char) :
    hex4 m ++ tail =
      hexDigitChar (m / 4096 % 16) :: hexDigitChar (m / 256 % 16) ::
      hexDigitChar (m / 16 % 16) :: hexDigitChar (m % 16) :: tail := by
  simp [hex4]

theorem psb_quote (r : List Char) : parseStrBody ('"' :: r) = some ([], r) := by
  simp [parseStrBody]

theorem psb_esc (r : List Char) : parseStrBody ('\\' :: r) = escSeq r := by
  simp [parseStrBody]

theorem psb_lit (c : Char) (r : List Char) (h1 : c ≠ '"') (h2 : c ≠ '\\')
    (h3 : ¬(c.toNat < 0x20)) :
    parseStrBody (c :: r) = consStr c (parseStrBody r) := by
  simp only [parseStrBody]
  rw [if_neg h1, if_neg h2, if_neg h3]

theorem uSeq_encode (m : Nat) (hm : m < 0x10000)
    (hout : ¬(0xD800 ≤ m ∧ m ≤ 0xDFFF)) (tail : List Char) :
    uSeq (hex4 m ++ tail) = consStr (Char.ofNat m) (parseStrBody tail) := by
  rw [hex4_cons]
  simp only [uSeq]
  rw [hex4Val_encode m hm]
  show (if 0xD800 ≤ m ∧ m ≤ 0xDBFF then lowSurr m tail
    else if 0xDC00 ≤ m ∧ m ≤ 0xDFFF then none
    else consStr (Char.ofNat m) (parseStrBody tail)) = _
  rw [if_neg (by omega), if_neg (by omega)]

theorem uSeq_encode_high (m : Nat) (hm : 0xD800 ≤ m ∧ m ≤ 0xDBFF)
    (tail : List Char) : uSeq (hex4 m ++ tail) = lowSurr m tail := by
  rw [hex4_cons]
  simp only [uSeq]
  rw [hex4Val_encode m (by omega)]
  show (if 0xD800 ≤ m ∧ m ≤ 0xDBFF then lowSurr m tail
    else if 0xDC00 ≤ m ∧ m ≤ 0xDFFF then none
    else consStr (Char.ofNat m) (parseStrBody tail)) = _
  rw [if_pos hm]

theorem lowSurr_encode (n m : Nat) (hm : 0xDC00 ≤ m ∧ m ≤ 0xDFFF)
    (tail : List Char) :
    lowSurr n ('\\' :: 'u' :: (hex4 m ++ tail)) =
      consStr (Char.ofNat (surrPair n m)) (parseStrBody tail) := by
  rw [hex4_cons]
  simp only [lowSurr]
  rw [hex4Val_encode m (by omega)]
  show (if 0xDC00 ≤ m ∧ m ≤ 0xDFFF then
      consStr (Char.ofNat (surrPair n m)) (parseStrBody tail)
    else none) = _
  rw [if_pos hm]

theorem rt_strBody : ∀ (s rest : List Char),
    parseStrBody (escString s ++ '"' :: rest) = some (s, rest) := by
  intro s
  induction s with
  | nil =>
    intro rest
    show parseStrBody ('"' :: rest) = some ([], rest)
    exact psb_quote rest
  | cons c cs ih =>
    intro rest
    rw [show escString (c :: cs) = escChar c ++ escString cs by simp [escString],
      List.append_assoc]
    unfold escChar
    by_cases h1 : c = '"'
    · subst h1
      rw [if_pos rfl]
      show parseStrBody ('\\' :: '"' :: (escString cs ++ '"' :: rest)) = _
      rw [psb_esc, show escSeq ('"' :: (escString cs ++ '"' :: rest)) =
          consStr '"' (parseStrBody (escString cs ++ '"' :: rest)) by simp [escSeq],
        ih rest]
      rfl
    · rw [if_neg h1]
      by_cases h2 : c = '\\'
      · subst h2
        rw [if_pos rfl]
        show parseStrBody ('\\' :: '\\' :: (escString cs ++ '"' :: rest)) = _
        rw [psb_esc, show escSeq ('\\' :: (escString cs ++ '"' :: rest)) =
            consStr '\\' (parseStrBody (escString cs ++ '"' :: rest)) by simp [escSeq],
          ih rest]
        rfl
      · rw [if_neg h2]
        by_cases h3 : c = '\n'
        · subst h3
          rw [if_pos rfl]
          show parseStrBody ('\\' :: 'n' :: (escString cs ++ '"' :: rest)) = _
          rw [psb_esc, show escSeq ('n' :: (escString cs ++ '"' :: rest)) =
              consStr '\n' (parseStrBody (escString cs ++ '"' :: rest)) by simp [escSeq],
            ih rest]
          rfl
        · rw [if_neg h3]
          by_cases h4 : c = '\r'
          · subst h4
            rw [if_pos rfl]
            show parseStrBody ('\\' :: 'r' :: (escString cs ++ '"' :: rest)) = _
            rw [psb_esc, show escSeq ('r' :: (escString cs ++ '"' :: rest)) =
                consStr '\r' (parseStrBody (escString cs ++ '"' :: rest)) by simp [escSeq],
              ih rest]
            rfl
          · rw [if_neg h4]
            by_cases h5 : c = '\t'
            · subst h5
              rw [if_pos rfl]
              show parseStrBody ('\\' :: 't' :: (escString cs ++ '"' :: rest)) = _
              rw [psb_esc, show escSeq ('t' :: (escString cs ++ '"' :: rest)) =
                  consStr '\t' (parseStrBody (escString cs ++ '"' :: rest)) by simp [escSeq],
                ih rest]
              rfl
            · rw [if_neg h5]
              by_cases h6 : c = '\x08'
              · subst h6
                rw [if_pos rfl]
                show parseStrBody ('\\' :: 'b' :: (escString cs ++ '"' :: rest)) = _
                rw [psb_esc, show escSeq ('b' :: (escString cs ++ '"' :: rest)) =
                    consStr '\x08' (parseStrBody (escString cs ++ '"' :: rest)) by simp [escSeq],
                  ih rest]
                rfl
              · rw [if_neg h6]
                by_cases h7 : c = '\x0c'
                · subst h7
                  rw [if_pos rfl]
                  show parseStrBody ('\\' :: 'f' :: (escString cs ++ '"' :: rest)) = _
                  rw [psb_esc, show escSeq ('f' :: (escString cs ++ '"' :: rest)) =
                      consStr '\x0c' (parseStrBody (escString cs ++ '"' :: rest)) by simp [escSeq],
                    ih rest]
                  rfl
                · rw [if_neg h7]
                  by_cases h8 : 0x20 ≤ c.toNat ∧ c.toNat ≤ 0x7E
                  · rw [if_pos h8]
                    show parseStrBody (c :: (escString cs ++ '"' :: rest)) = _
                    rw [psb_lit c _ h1 h2 (by omega), ih rest]
                    rfl
                  · rw [if_neg h8]
                    by_cases h9 : c.toNat < 0x10000
                    · rw [if_pos h9]
                      rw [show ('\\' :: 'u' :: hex4 c.toNat) ++
                          (escString cs ++ '"' :: rest) =
                          '\\' :: 'u' :: (hex4 c.toNat ++
                            (escString cs ++ '"' :: rest)) by simp]
                      rw [psb_esc,
                        show escSeq ('u' :: (hex4 c.toNat ++
                            (escString cs ++ '"' :: rest))) =
                          uSeq (hex4 c.toNat ++ (escString cs ++ '"' :: rest)) by
                            simp [escSeq]]
                      rw [uSeq_encode c.toNat h9
                          (by rcases char_valid_ranges c with hv | hv <;> omega),
                        Char.ofNat_toNat, ih rest]
                      rfl
                    · rw [if_neg h9]
                      rcases char_valid_ranges c with hv | hv
                      · omega
                      · rw [show ('\\' :: 'u' :: hex4 (0xD800 + (c.toNat - 0x10000) / 0x400)) ++
                            ('\\' :: 'u' :: hex4 (0xDC00 + (c.toNat - 0x10000) % 0x400)) ++
                            (escString cs ++ '"' :: rest) =
                            '\\' :: 'u' :: (hex4 (0xD800 + (c.toNat - 0x10000) / 0x400) ++
                              ('\\' :: 'u' :: (hex4 (0xDC00 + (c.toNat - 0x10000) % 0x400) ++
                                (escString cs ++ '"' :: rest)))) by simp]
                        rw [psb_esc,
                          show escSeq ('u' :: (hex4 (0xD800 + (c.toNat - 0x10000) / 0x400) ++
                              ('\\' :: 'u' :: (hex4 (0xDC00 + (c.toNat - 0x10000) % 0x400) ++
                                (escString cs ++ '"' :: rest))))) =
                            uSeq (hex4 (0xD800 + (c.toNat - 0x10000) / 0x400) ++
                              ('\\' :: 'u' :: (hex4 (0xDC00 + (c.toNat - 0x10000) % 0x400) ++
                                (escString cs ++ '"' :: rest)))) by simp [escSeq]]
                        rw [uSeq_encode_high _ (by omega) _,
                          lowSurr_encode _ _ (by omega) _]
                        have hsp : surrPair (0xD800 + (c.toNat - 0x10000) / 0x400)
                            (0xDC00 + (c.toNat - 0x10000) % 0x400) = c.toNat := by
                          unfold surrPair
                          omega
                        rw [hsp, Char.ofNat_toNat, ih rest]
                        rfl

/-! ### Heads of rendered values and whitespace plumbing. -/

theorem jsonSize_pos : ∀ j : Json, 1 ≤ jsonSize j := by
  intro j
  cases j <;> simp [jsonSize]

theorem intChars_head (n : Int) :
    ∃ c t, intChars n = c :: t ∧ (isDigitChar c = true ∨ c = '-') := by
  unfold intChars
  by_cases hn : n < 0
  · rw [if_pos hn]
    exact ⟨'-', natChars n.natAbs, rfl, Or.inr rfl⟩
  · rw [if_neg hn]
    unfold natChars
    cases he : natCharsAux (n.natAbs + 1) n.natAbs with
    | nil => exact absurd he (natCharsAux_ne_nil _ _ (by omega))
    | cons c t =>
      refine ⟨c, t, rfl, Or.inl ?_⟩
      have := natCharsAux_digits (n.natAbs + 1) n.natAbs (by omega) c
      rw [he] at this
      exact this (List.mem_cons_self c t)

theorem numHead_props (c : Char) (h : isDigitChar c = true ∨ c = '-') :
    isWsChar c = false ∧ c ≠ '\x7b' ∧ c ≠ '[' ∧ c ≠ '"' ∧ c ≠ 't' ∧
      c ≠ 'f' ∧ c ≠ 'n' ∧ c ≠ ']' ∧ c ≠ '\x7d' := by
  rcases h with h | rfl
  · have hb := (isDigitChar_iff c).mp h
    refine ⟨digit_not_ws c h, ?_, ?_, ?_, ?_, ?_, ?_, ?_, ?_⟩ <;>
      exact fun hh => by have := toNat_eq_of_eq hh; simp at this; omega
  · refine ⟨by decide, by decide, by decide, by decide, by decide, by decide,
      by decide, by decide, by decide⟩

theorem renderHead (ind : Nat) (j : Json) :
    ∃ c t, renderJson ind j = c :: t ∧ isWsChar c = false ∧
      c ≠ ']' ∧ c ≠ '\x7d' := by
  cases j with
  | null => exact ⟨'n', _, rfl, by decide, by decide, by decide⟩
  | bool b =>
    cases b with
    | true =>
      refine ⟨'t', ['r', 'u', 'e'], ?_, by decide, by decide, by decide⟩
      simp [renderJson, jsTrueChars]
    | false =>
      refine ⟨'f', ['a', 'l', 's', 'e'], ?_, by decide, by decide, by decide⟩
      simp [renderJson, jsFalseChars]
  | num n =>
    obtain ⟨c, t, hic, hcd⟩ := intChars_head n
    have hp := numHead_props c hcd
    exact ⟨c, t, by simp [renderJson, hic], hp.1, hp.2.2.2.2.2.2.2.1,
      hp.2.2.2.2.2.2.2.2⟩
  | str s => exact ⟨'"', _, rfl, by decide, by decide, by decide⟩
  | arr xs =>
    cases xs with
    | nil => exact ⟨'[', [']'], rfl, by decide, by decide, by decide⟩
    | cons hd tl => exact ⟨'[', _, rfl, by decide, by decide, by decide⟩
  | obj xs =>
    cases xs with
    | nil => exact ⟨'\x7b', ['\x7d'], rfl, by decide, by decide, by decide⟩
    | cons k v tl => exact ⟨'\x7b', _, rfl, by decide, by decide, by decide⟩

theorem skipWs_nl_indent (n : Nat) (s : List Char) :
    skipWs ('\n' :: (indentChars n ++ s)) = skipWs s := by
  rw [show '\n' :: (indentChars n ++ s) = ('\n' :: indentChars n) ++ s by simp]
  refine skipWs_append_ws _ _ ?_
  intro c hc
  rcases List.mem_cons.mp hc with rfl | hc
  · decide
  · exact ws_indent n c hc

theorem skipWs_render (ind : Nat) (j : Json) (rest : List Char) :
    skipWs (renderJson ind j ++ rest) = renderJson ind j ++ rest := by
  obtain ⟨c, t, hct, hws, _, _⟩ := renderHead ind j
  rw [hct, List.cons_append, skipWs_cons_of_not_ws c _ hws]

theorem notDigitHead_moreItems (ind : Nat) (tl : JsonArr) (s : List Char) :
    notDigitHead (renderMoreItems ind tl ++ '\n' :: s) := by
  cases tl with
  | nil => simp [renderMoreItems, notDigitHead]; decide
  | cons h2 t2 => simp [renderMoreItems, notDigitHead]; decide

theorem notDigitHead_moreMembers (ind : Nat) (tl : JsonObj) (s : List Char) :
    notDigitHead (renderMoreMembers ind tl ++ '\n' :: s) := by
  cases tl with
  | nil => simp [renderMoreMembers, notDigitHead]; decide
  | cons k2 v2 t2 => simp [renderMoreMembers, notDigitHead]; decide

theorem numSep_of_notDigitHead (j : Json) (l : List Char) (h : notDigitHead l) :
    numSep j l := by
  cases j <;> simp [numSep] <;> exact h

theorem parseVal_ws (fuel : Nat) (w s : List Char)
    (hw : ∀ c ∈ w, isWsChar c = true) :
    parseVal fuel (w ++ s) = parseVal fuel s := by
  cases fuel with
  | zero => simp [parseVal]
  | succ f =>
    simp only [parseVal]
    rw [skipWs_append_ws w s hw]

theorem parseElems_ws (fuel : Nat) (w s : List Char)
    (hw : ∀ c ∈ w, isWsChar c = true) :
    parseElems fuel (w ++ s) = parseElems fuel s := by
  cases fuel with
  | zero => simp [parseElems]
  | succ f =>
    simp only [parseElems]
    rw [parseVal_ws f (w) s hw]

theorem parseMembers_ws (fuel : Nat) (w s : List Char)
    (hw : ∀ c ∈ w, isWsChar c = true) :
    parseMembers fuel (w ++ s) = parseMembers fuel s := by
  cases fuel with
  | zero => simp [parseMembers]
  | succ f =>
    simp only [parseMembers]
    rw [skipWs_append_ws w s hw]

/-! ### Rebuilding a parsed object gives back the original dict. -/

theorem objConcat_nil : ∀ o : JsonObj, objConcat o .nil = o
  | .nil => rfl
  | .cons k v tl => by simp [objConcat, objConcat_nil tl]

theorem objHasKey_concat : ∀ (a b : JsonObj) (q : List Char),
    objHasKey (objConcat a b) q = (objHasKey a q || objHasKey b q)
  | .nil, b, q => by simp [objConcat, objHasKey]
  | .cons k v tl, b, q => by
    by_cases hk : k = q <;>
      simp [objConcat, objHasKey, hk, objHasKey_concat tl b q]

theorem objInsert_absent : ∀ (o : JsonObj) (q : List Char) (w : Json),
    objHasKey o q = false →
    objInsert o q w = objConcat o (.cons q w .nil)
  | .nil, q, w, _ => rfl
  | .cons k v tl, q, w, h => by
    simp only [objHasKey, Bool.or_eq_false_iff] at h
    rcases h with ⟨hk, htl⟩
    simp only [objInsert, objConcat]
    rw [if_neg (by simpa using hk), objInsert_absent tl q w htl]

theorem objConcat_assoc : ∀ (a b c : JsonObj),
    objConcat (objConcat a b) c = objConcat a (objConcat b c)
  | .nil, _, _ => rfl
  | .cons k v tl, b, c => by simp [objConcat, objConcat_assoc tl b c]

theorem foldl_objInsert_concat : ∀ (xs : JsonObj) (acc : JsonObj),
    jsonObjWf xs = true →
    (∀ q, objHasKey xs q = true → objHasKey acc q = false) →
    List.foldl (fun o kv => objInsert o kv.1 kv.2) acc (toMembers xs) =
      objConcat acc xs
  | .nil, acc, _, _ => by
    rw [toMembers, List.foldl_nil, objConcat_nil]
  | .cons k v tl, acc, hwf, hacc => by
    have hks : objHasKey (.cons k v tl) k = true := by simp [objHasKey]
    have hkacc : objHasKey acc k = false := hacc k hks
    rw [toMembers, List.foldl_cons, objInsert_absent acc k v hkacc]
    have hwf' : jsonObjWf tl = true := by
      simp only [jsonObjWf, Bool.and_eq_true] at hwf
      exact hwf.2
    have hktl : objHasKey tl k = false := by
      simp only [jsonObjWf, Bool.and_eq_true] at hwf
      simpa using hwf.1.1
    rw [foldl_objInsert_concat tl (objConcat acc (.cons k v .nil)) hwf' ?_]
    · rw [objConcat_assoc]
      rfl
    · intro q hq
      rw [objHasKey_concat]
      have h1 : objHasKey acc q = false :=
        hacc q (by simp [objHasKey, hq])
      have h2 : objHasKey (JsonObj.cons k v .nil) q = false := by
        have hkq : k ≠ q := by
          intro hkq
          rw [hkq] at hktl
          rw [hktl] at hq
          cases hq
        simp [objHasKey, hkq]
      rw [h1, h2]
      rfl

theorem objFromMembers_toMembers (xs : JsonObj) (h : jsonObjWf xs = true) :
    objFromMembers (toMembers xs) = xs := by
  unfold objFromMembers
  rw [foldl_objInsert_concat xs .nil h (fun q _ => rfl)]
  rfl

/-! ### Branch lemmas for the value parser. -/

theorem valDispatch_obj (fuel : Nat) (r : List Char) :
    valDispatch fuel ('\x7b' :: r) = objBody fuel r := by
  simp [valDispatch]

theorem valDispatch_arr (fuel : Nat) (r : List Char) :
    valDispatch fuel ('[' :: r) = arrBody fuel r := by
  simp [valDispatch]

theorem valDispatch_str (fuel : Nat) (r : List Char) :
    valDispatch fuel ('"' :: r) = strVal r := by
  simp [valDispatch]

theorem valDispatch_true (fuel : Nat) (r : List Char) :
    valDispatch fuel ('t' :: r) = parseTrue r := by
  simp [valDispatch]

theorem valDispatch_false (fuel : Nat) (r : List Char) :
    valDispatch fuel ('f' :: r) = parseFalse r := by
  simp [valDispatch]

theorem valDispatch_null (fuel : Nat) (r : List Char) :
    valDispatch fuel ('n' :: r) = parseNull r := by
  simp [valDispatch]

theorem valDispatch_num (fuel : Nat) (c : Char) (r : List Char)
    (h1 : c ≠ '\x7b') (h2 : c ≠ '[') (h3 : c ≠ '"') (h4 : c ≠ 't')
    (h5 : c ≠ 'f') (h6 : c ≠ 'n') :
    valDispatch fuel (c :: r) = numVal (c :: r) := by
  simp [valDispatch, h1, h2, h3, h4, h5, h6]

theorem arrBody_close (fuel : Nat) (r r2 : List Char)
    (hskip : skipWs r = ']' :: r2) : arrBody fuel r = some (.arr .nil, r2) := by
  simp only [arrBody]
  rw [hskip]
  show (if (']' : Char) = ']' then some (Json.arr .nil, r2)
    else match parseElems fuel (']' :: r2) with
      | some (xs, rest) => some (Json.arr xs, rest)
      | none => none) = _
  rw [if_pos rfl]

theorem arrBody_step (fuel : Nat) (r : List Char) (c2 : Char) (r2 : List Char)
    (hskip : skipWs r = c2 :: r2) (h : c2 ≠ ']') :
    arrBody fuel r =
      match parseElems fuel (c2 :: r2) with
      | some (xs, rest) => some (Json.arr xs, rest)
      | none => none := by
  simp only [arrBody]
  rw [hskip]
  show (if c2 = ']' then some (Json.arr .nil, r2)
    else match parseElems fuel (c2 :: r2) with
      | some (xs, rest) => some (Json.arr xs, rest)
      | none => none) = _
  rw [if_neg h]

theorem objBody_close (fuel : Nat) (r r2 : List Char)
    (hskip : skipWs r = '\x7d' :: r2) : objBody fuel r = some (.obj .nil, r2) := by
  simp only [objBody]
  rw [hskip]
  show (if ('\x7d' : Char) = '\x7d' then some (Json.obj .nil, r2)
    else match parseMembers fuel ('\x7d' :: r2) with
      | some (ms, rest) => some (Json.obj (objFromMembers ms), rest)
      | none => none) = _
  rw [if_pos rfl]

theorem objBody_step (fuel : Nat) (r : List Char) (c2 : Char) (r2 : List Char)
    (hskip : skipWs r = c2 :: r2) (h : c2 ≠ '\x7d') :
    objBody fuel r =
      match parseMembers fuel (c2 :: r2) with
      | some (ms, rest) => some (Json.obj (objFromMembers ms), rest)
      | none => none := by
  simp only [objBody]
  rw [hskip]
  show (if c2 = '\x7d' then some (Json.obj .nil, r2)
    else match parseMembers fuel (c2 :: r2) with
      | some (ms, rest) => some (Json.obj (objFromMembers ms), rest)
      | none => none) = _
  rw [if_neg h]

/-! ### The round trip: parsing a rendered value gives it back. -/

mutual

theorem rt_val : ∀ (j : Json) (fuel ind : Nat) (rest : List Char),
    jsonWf j = true → jsonSize j ≤ fuel → numSep j rest →
    parseVal fuel (renderJson ind j ++ rest) = some (j, rest)
  | j, 0, _, _, _, hfuel, _ => by
    have := jsonSize_pos j
    omega
  | .null, fuel + 1, ind, rest, _, _, _ => by
    simp only [parseVal]
    rw [show renderJson ind .null ++ rest = 'n' :: 'u' :: 'l' :: 'l' :: rest from rfl,
      skipWs_cons_of_not_ws _ _ (by decide), valDispatch_null]
    rfl
  | .bool true, fuel + 1, ind, rest, _, _, _ => by
    simp only [parseVal]
    rw [show renderJson ind (.bool true) ++ rest = 't' :: 'r' :: 'u' :: 'e' :: rest
        from rfl,
      skipWs_cons_of_not_ws _ _ (by decide), valDispatch_true]
    rfl
  | .bool false, fuel + 1, ind, rest, _, _, _ => by
    simp only [parseVal]
    rw [show renderJson ind (.bool false) ++ rest =
        'f' :: 'a' :: 'l' :: 's' :: 'e' :: rest from rfl,
      skipWs_cons_of_not_ws _ _ (by decide), valDispatch_false]
    rfl
  | .num n, fuel + 1, ind, rest, _, _, hsep => by
    obtain ⟨c, t, hic, hcd⟩ := intChars_head n
    have hp := numHead_props c hcd
    simp only [parseVal]
    rw [show renderJson ind (.num n) = intChars n from rfl, hic, List.cons_append,
      skipWs_cons_of_not_ws _ _ hp.1,
      valDispatch_num fuel c _ hp.2.1 hp.2.2.1 hp.2.2.2.1 hp.2.2.2.2.1
        hp.2.2.2.2.2.1 hp.2.2.2.2.2.2.1]
    unfold numVal
    rw [show c :: (t ++ rest) = intChars n ++ rest by rw [hic, List.cons_append],
      parseInt_intChars n rest (by simpa [numSep] using hsep)]
  | .str s, fuel + 1, ind, rest, _, _, _ => by
    simp only [parseVal]
    rw [show renderJson ind (.str s) ++ rest = '"' :: (escString s ++ '"' :: rest) by
        simp [renderJson, renderStr],
      skipWs_cons_of_not_ws _ _ (by decide), valDispatch_str]
    unfold strVal
    rw [rt_strBody s rest]
  | .arr .nil, fuel + 1, ind, rest, _, _, _ => by
    simp only [parseVal]
    rw [show renderJson ind (.arr .nil) ++ rest = '[' :: ']' :: rest from rfl,
      skipWs_cons_of_not_ws _ _ (by decide), valDispatch_arr]
    exact arrBody_close fuel (']' :: rest) rest
      (skipWs_cons_of_not_ws _ _ (by decide))
  | .arr (.cons hd tl), fuel + 1, ind, rest, hwf, hfuel, _ => by
    have hwf2 : jsonWf hd = true ∧ jsonArrWf tl = true := by
      simpa [jsonWf, jsonArrWf, Bool.and_eq_true] using hwf
    simp only [parseVal]
    rw [show renderJson ind (.arr (.cons hd tl)) ++ rest =
        '[' :: ('\n' :: (indentChars (ind + 2) ++ (renderJson (ind + 2) hd ++
          (renderMoreItems (ind + 2) tl ++
            '\n' :: (indentChars ind ++ ']' :: rest))))) by
        simp [renderJson],
      skipWs_cons_of_not_ws _ _ (by decide), valDispatch_arr]
    obtain ⟨c2, t2, hct, hws2, hnb, _⟩ := renderHead (ind + 2) hd
    have hskip : skipWs ('\n' :: (indentChars (ind + 2) ++ (renderJson (ind + 2) hd ++
        (renderMoreItems (ind + 2) tl ++ '\n' :: (indentChars ind ++ ']' :: rest))))) =
        c2 :: (t2 ++ (renderMoreItems (ind + 2) tl ++
          '\n' :: (indentChars ind ++ ']' :: rest))) := by
      rw [skipWs_nl_indent, hct, List.cons_append, skipWs_cons_of_not_ws _ _ hws2]
    rw [arrBody_step fuel _ c2 _ hskip hnb,
      show c2 :: (t2 ++ (renderMoreItems (ind + 2) tl ++
          '\n' :: (indentChars ind ++ ']' :: rest))) =
        renderJson (ind + 2) hd ++ (renderMoreItems (ind + 2) tl ++
          '\n' :: (indentChars ind ++ ']' :: rest)) by rw [hct, List.cons_append],
      rt_elems hd tl fuel (ind + 2) (indentChars ind) rest hwf2.1 hwf2.2
        (by simp [jsonSize, jsonArrSize] at hfuel ⊢; omega) (ws_indent ind)]
  | .obj .nil, fuel + 1, ind, rest, _, _, _ => by
    simp only [parseVal]
    rw [show renderJson ind (.obj .nil) ++ rest = '\x7b' :: '\x7d' :: rest from rfl,
      skipWs_cons_of_not_ws _ _ (by decide), valDispatch_obj]
    exact objBody_close fuel ('\x7d' :: rest) rest
      (skipWs_cons_of_not_ws _ _ (by decide))
  | .obj (.cons k v tl), fuel + 1, ind, rest, hwf, hfuel, _ => by
    have hwf2 : (objHasKey tl k = false ∧ jsonWf v = true) ∧ jsonObjWf tl = true := by
      simpa [jsonWf, jsonObjWf, Bool.and_eq_true] using hwf
    simp only [parseVal]
    rw [show renderJson ind (.obj (.cons k v tl)) ++ rest =
        '\x7b' :: ('\n' :: (indentChars (ind + 2) ++
          ('"' :: (escString k ++ '"' :: (':' :: ' ' :: (renderJson (ind + 2) v ++
            (renderMoreMembers (ind + 2) tl ++
              '\n' :: (indentChars ind ++ '\x7d' :: rest)))))))) by
        simp [renderJson, renderStr],
      skipWs_cons_of_not_ws _ _ (by decide), valDispatch_obj]
    have hskip : skipWs ('\n' :: (indentChars (ind + 2) ++
        ('"' :: (escString k ++ '"' :: (':' :: ' ' :: (renderJson (ind + 2) v ++
          (renderMoreMembers (ind + 2) tl ++
            '\n' :: (indentChars ind ++ '\x7d' :: rest)))))))) =
        '"' :: (escString k ++ '"' :: (':' :: ' ' :: (renderJson (ind + 2) v ++
          (renderMoreMembers (ind + 2) tl ++
            '\n' :: (indentChars ind ++ '\x7d' :: rest))))) := by
      rw [skipWs_nl_indent, skipWs_cons_of_not_ws _ _ (by decide)]
    rw [objBody_step fuel _ '"' _ hskip (by decide),
      rt_members k v tl fuel (ind + 2) (indentChars ind) rest hwf2.1.2 hwf2.2
        (by simp [jsonSize, jsonObjSize] at hfuel ⊢; omega) (ws_indent ind)]
    show some (Json.obj (objFromMembers (toMembers (JsonObj.cons k v tl))), rest) =
      some (Json.obj (JsonObj.cons k v tl), rest)
    rw [objFromMembers_toMembers (.cons k v tl) hwf]
termination_by j _ _ _ _ _ _ => jsonSize j
decreasing_by all_goals (first | omega | (simp only [jsonSize, jsonArrSize, jsonObjSize]; omega))

theorem rt_elems : ∀ (hd : Json) (tl : JsonArr) (fuel ind : Nat) (w rest : List Char),
    jsonWf hd = true → jsonArrWf tl = true →
    jsonArrSize (.cons hd tl) ≤ fuel → (∀ c ∈ w, isWsChar c = true) →
    parseElems fuel (renderJson ind hd ++ (renderMoreItems ind tl ++
      '\n' :: (w ++ ']' :: rest))) = some (.cons hd tl, rest)
  | hd, tl, 0, _, _, _, _, _, hfuel, _ => by
    simp [jsonArrSize] at hfuel
  | hd, .nil, fuel + 1, ind, w, rest, hwfh, hwft, hfuel, hw => by
    simp only [parseElems]
    rw [rt_val hd fuel ind _ hwfh (by simp [jsonArrSize] at hfuel; omega)
      (numSep_of_notDigitHead hd _ (notDigitHead_moreItems ind .nil _))]
    show elemsTail fuel hd (skipWs (renderMoreItems ind .nil ++
      '\n' :: (w ++ ']' :: rest))) = _
    rw [show renderMoreItems ind .nil ++ '\n' :: (w ++ ']' :: rest) =
        ('\n' :: w) ++ (']' :: rest) by simp [renderMoreItems],
      skipWs_append_ws ('\n' :: w) (']' :: rest) ?_,
      skipWs_cons_of_not_ws _ _ (by decide)]
    · simp [elemsTail]
    · intro c hc
      rcases List.mem_cons.mp hc with rfl | hc
      · decide
      · exact hw c hc
  | hd, .cons h2 t2, fuel + 1, ind, w, rest, hwfh, hwft, hfuel, hw => by
    have hwf3 : jsonWf h2 = true ∧ jsonArrWf t2 = true := by
      simpa [jsonArrWf, Bool.and_eq_true] using hwft
    simp only [parseElems]
    rw [rt_val hd fuel ind _ hwfh (by simp [jsonArrSize] at hfuel; omega)
      (numSep_of_notDigitHead hd _ (notDigitHead_moreItems ind (.cons h2 t2) _))]
    show elemsTail fuel hd (skipWs (renderMoreItems ind (.cons h2 t2) ++
      '\n' :: (w ++ ']' :: rest))) = _
    rw [show renderMoreItems ind (.cons h2 t2) ++ '\n' :: (w ++ ']' :: rest) =
        ',' :: (('\n' :: indentChars ind) ++ (renderJson ind h2 ++
          (renderMoreItems ind t2 ++ '\n' :: (w ++ ']' :: rest)))) by
        simp [renderMoreItems],
      skipWs_cons_of_not_ws _ _ (by decide)]
    simp only [elemsTail]
    rw [parseElems_ws fuel ('\n' :: indentChars ind) _ ?_,
      rt_elems h2 t2 fuel ind w rest hwf3.1 hwf3.2
        (by simp [jsonArrSize] at hfuel ⊢; omega) hw]
    · intro c hc
      rcases List.mem_cons.mp hc with rfl | hc
      · decide
      · exact ws_indent ind c hc
termination_by hd tl _ _ _ _ _ _ _ _ => 1 + jsonSize hd + jsonArrSize tl
decreasing_by all_goals (first | omega | (simp only [jsonSize, jsonArrSize, jsonObjSize]; omega))

theorem rt_members : ∀ (k : List Char) (v : Json) (tl : JsonObj)
    (fuel ind : Nat) (w rest : List Char),
    jsonWf v = true → jsonObjWf tl = true →
    jsonObjSize (.cons k v tl) ≤ fuel → (∀ c ∈ w, isWsChar c = true) →
    parseMembers fuel ('"' :: (escString k ++ '"' :: (':' :: ' ' ::
      (renderJson ind v ++ (renderMoreMembers ind tl ++
        '\n' :: (w ++ '\x7d' :: rest)))))) =
      some (toMembers (.cons k v tl), rest)
  | k, v, tl, 0, _, _, _, _, _, hfuel, _ => by
    simp [jsonObjSize] at hfuel
  | k, v, .nil, fuel + 1, ind, w, rest, hwfv, hwft, hfuel, hw => by
    simp only [parseMembers]
    rw [skipWs_cons_of_not_ws _ _ (by decide)]
    simp only [membersBody]
    rw [rt_strBody k _]
    show memberColon fuel k (skipWs (':' :: ' ' :: (renderJson ind v ++
      (renderMoreMembers ind .nil ++ '\n' :: (w ++ '\x7d' :: rest))))) = _
    rw [skipWs_cons_of_not_ws _ _ (by decide)]
    simp only [memberColon]
    rw [show ' ' :: (renderJson ind v ++ (renderMoreMembers ind .nil ++
          '\n' :: (w ++ '\x7d' :: rest))) =
        [' '] ++ (renderJson ind v ++ (renderMoreMembers ind .nil ++
          '\n' :: (w ++ '\x7d' :: rest))) from rfl,
      parseVal_ws fuel [' '] _ (by decide),
      rt_val v fuel ind _ hwfv (by simp [jsonObjSize] at hfuel; omega)
        (numSep_of_notDigitHead v _ (notDigitHead_moreMembers ind .nil _))]
    show memberSep fuel k v (skipWs (renderMoreMembers ind .nil ++
      '\n' :: (w ++ '\x7d' :: rest))) = _
    rw [show renderMoreMembers ind .nil ++ '\n' :: (w ++ '\x7d' :: rest) =
        ('\n' :: w) ++ ('\x7d' :: rest) by simp [renderMoreMembers],
      skipWs_append_ws ('\n' :: w) ('\x7d' :: rest) ?_,
      skipWs_cons_of_not_ws _ _ (by decide)]
    · simp [memberSep, toMembers]
    · intro c hc
      rcases List.mem_cons.mp hc with rfl | hc
      · decide
      · exact hw c hc
  | k, v, .cons k2 v2 t2, fuel + 1, ind, w, rest, hwfv, hwft, hfuel, hw => by
    have hwf3 : (objHasKey t2 k2 = false ∧ jsonWf v2 = true) ∧
        jsonObjWf t2 = true := by
      simpa [jsonObjWf, Bool.and_eq_true] using hwft
    simp only [parseMembers]
    rw [skipWs_cons_of_not_ws _ _ (by decide)]
    simp only [membersBody]
    rw [rt_strBody k _]
    show memberColon fuel k (skipWs (':' :: ' ' :: (renderJson ind v ++
      (renderMoreMembers ind (.cons k2 v2 t2) ++
        '\n' :: (w ++ '\x7d' :: rest))))) = _
    rw [skipWs_cons_of_not_ws _ _ (by decide)]
    simp only [memberColon]
    rw [show ' ' :: (renderJson ind v ++ (renderMoreMembers ind (.cons k2 v2 t2) ++
          '\n' :: (w ++ '\x7d' :: rest))) =
        [' '] ++ (renderJson ind v ++ (renderMoreMembers ind (.cons k2 v2 t2) ++
          '\n' :: (w ++ '\x7d' :: rest))) from rfl,
      parseVal_ws fuel [' '] _ (by decide),
      rt_val v fuel ind _ hwfv (by simp [jsonObjSize] at hfuel; omega)
        (numSep_of_notDigitHead v _
          (notDigitHead_moreMembers ind (.cons k2 v2 t2) _))]
    show memberSep fuel k v (skipWs (renderMoreMembers ind (.cons k2 v2 t2) ++
      '\n' :: (w ++ '\x7d' :: rest))) = _
    rw [show renderMoreMembers ind (.cons k2 v2 t2) ++
          '\n' :: (w ++ '\x7d' :: rest) =
        ',' :: (('\n' :: indentChars ind) ++ ('"' :: (escString k2 ++ '"' ::
          (':' :: ' ' :: (renderJson ind v2 ++ (renderMoreMembers ind t2 ++
            '\n' :: (w ++ '\x7d' :: rest))))))) by
        simp [renderMoreMembers, renderStr],
      skipWs_cons_of_not_ws _ _ (by decide)]
    simp only [memberSep]
    rw [parseMembers_ws fuel ('\n' :: indentChars ind) _ ?_,
      rt_members k2 v2 t2 fuel ind w rest hwf3.1.2 hwf3.2
        (by simp [jsonObjSize] at hfuel ⊢; omega) hw]
    · rfl
    · intro c hc
      rcases List.mem_cons.mp hc with rfl | hc
      · decide
      · exact ws_indent ind c hc
termination_by _ v tl _ _ _ _ _ _ _ _ => 1 + jsonSize v + jsonObjSize tl
decreasing_by all_goals (first | omega | (simp only [jsonSize, jsonArrSize, jsonObjSize]; omega))

end

/-! ### The structural size is bounded by the rendered length. -/

mutual

theorem size_le_render : ∀ (j : Json) (ind : Nat),
    jsonSize j ≤ (renderJson ind j).length
  | .null, ind => by simp [renderJson, jsNullChars, jsonSize]
  | .bool true, ind => by simp [renderJson, jsTrueChars, jsonSize]
  | .bool false, ind => by simp [renderJson, jsFalseChars, jsonSize]
  | .num n, ind => by
    obtain ⟨c, t, hic, _⟩ := intChars_head n
    simp [renderJson, hic, jsonSize]
  | .str s, ind => by simp [renderJson, renderStr, jsonSize]
  | .arr .nil, ind => by simp [renderJson, jsonSize, jsonArrSize]
  | .arr (.cons hd tl), ind => by
    have h1 := size_le_render hd (ind + 2)
    have h2 := sizeArr_le_render tl (ind + 2)
    simp only [renderJson, jsonSize, jsonArrSize, List.length_append,
      List.length_cons, List.cons_append] at h1 h2 ⊢
    omega
  | .obj .nil, ind => by simp [renderJson, jsonSize, jsonObjSize]
  | .obj (.cons k v tl), ind => by
    have h1 := size_le_render v (ind + 2)
    have h2 := sizeObj_le_render tl (ind + 2)
    simp only [renderJson, jsonSize, jsonObjSize, renderStr, List.length_append,
      List.length_cons, List.cons_append] at h1 h2 ⊢
    omega
termination_by j _ => jsonSize j
decreasing_by all_goals (first | omega | (simp only [jsonSize, jsonArrSize, jsonObjSize]; omega))

theorem sizeArr_le_render : ∀ (tl : JsonArr) (ind : Nat),
    jsonArrSize tl ≤ (renderMoreItems ind tl).length
  | .nil, ind => by simp [renderMoreItems, jsonArrSize]
  | .cons hd tl, ind => by
    have h1 := size_le_render hd ind
    have h2 := sizeArr_le_render tl ind
    simp only [renderMoreItems, jsonArrSize, List.length_append,
      List.length_cons, List.cons_append] at h1 h2 ⊢
    omega
termination_by tl _ => jsonArrSize tl
decreasing_by all_goals (first | omega | (simp only [jsonSize, jsonArrSize, jsonObjSize]; omega))

theorem sizeObj_le_render : ∀ (tl : JsonObj) (ind : Nat),
    jsonObjSize tl ≤ (renderMoreMembers ind tl).length
  | .nil, ind => by simp [renderMoreMembers, jsonObjSize]
  | .cons k v tl, ind => by
    have h1 := size_le_render v ind
    have h2 := sizeObj_le_render tl ind
    simp only [renderMoreMembers, jsonObjSize, renderStr, List.length_append,
      List.length_cons, List.cons_append] at h1 h2 ⊢
    omega
termination_by tl _ => jsonObjSize tl
decreasing_by all_goals (first | omega | (simp only [jsonSize, jsonArrSize, jsonObjSize]; omega))

end

/-- C8: round trip.  Whenever the program writes a record (a well-formed
dict, as every Python dict is), the content stored at the record's output
path — the 2-space-indented serialization the program produced — parses
back, via the embedded `json.load`, to a value deep-equal to the original
record. -/
theorem c8_serialization_roundtrip (fs fs' : FS) (item : JsonObj) (p : List Char)
    (hwf : jsonObjWf item = true)
    (hproc : processItem fs item = some fs') (hpath : pathOf item = some p) :
    ∃ content, lookupF fs'.files p = some content ∧
      parseTop content = some (.obj item) := by
  obtain ⟨q, hq, hfiles⟩ := processItem_files hproc
  rw [hq] at hpath
  obtain rfl : q = p := Option.some.inj hpath
  refine ⟨renderJson 0 (.obj item), ?_, ?_⟩
  · rw [hfiles, lookupF_setF_self]
  · unfold parseTop
    have hsz := size_le_render (.obj item) 0
    have hrt := rt_val (.obj item) ((renderJson 0 (.obj item)).length + 1) 0 []
      (by simpa [jsonWf] using hwf) (by omega) (by simp [numSep])
    rw [List.append_nil] at hrt
    rw [hrt]
    simp [skipWs]

/-- Witness for C8: the longsword record written by the concrete run is
recovered exactly by parsing its output file. -/
theorem c8_witness :
    ∃ content,
      lookupF longswordFS.files ("organized_items/weapon/longsword.json").data =
        some content ∧
      parseTop content = some (.obj itemLongsword) :=
  c8_serialization_roundtrip emptyFS longswordFS itemLongsword
    ("organized_items/weapon/longsword.json").data
    (by decide) (by decide) (by decide)
